import Mathlib

/-!
# Explicit free-list heap allocator (`explicit.c`)

A shallow embedding of the allocator of `explicit.c`.

* Memory is a map from byte addresses to byte values; an `unsigned long` /
  pointer access reads or writes eight consecutive bytes, little-endian.
* `size_t` arithmetic is reduced modulo `2 ^ 64`, as unsigned arithmetic in C.
* Addresses are natural numbers and `(char *)p + n` is `p + n`: C leaves
  pointer overflow undefined, so the embedding does not wrap it.  A pointer
  that is stored in memory and read back is a 64-bit word.
* The global variables of the file form the record `State`.
* Every `while` loop becomes a recursive function with a fuel argument; the
  result is `none` when the fuel runs out before the loop exits.
-/

namespace Explicit

/-! ## Constants -/

/-- Modelled from the spec: the constant `ALIGNMENT` of `allocator.h`, a header
that is not among the sources.  The header width and the width of each link
field is one machine word, eight bytes. -/
def ALIGNMENT : Nat := 8

def MINHEAP : Nat := 24
def MINSIZE : Nat := 16
def SEVEN : Nat := 7
def SIX : Nat := 6

/-- Number of values of a `size_t` / `unsigned long`. -/
def WORD : Nat := 2 ^ 64

/-- Bitwise complement of a 64-bit word, `~x`. -/
def wnot (x : Nat) : Nat := WORD - 1 - x % WORD

/-! ## Memory -/

/-- Byte-addressed memory. -/
abbrev Mem := Nat → Nat

/-- Read of an `unsigned long` (or a pointer) at address `a`. -/
def load (m : Mem) (a : Nat) : Nat :=
  m a % 256 + (m (a + 1) % 256) * 256 ^ 1 + (m (a + 2) % 256) * 256 ^ 2
    + (m (a + 3) % 256) * 256 ^ 3 + (m (a + 4) % 256) * 256 ^ 4
    + (m (a + 5) % 256) * 256 ^ 5 + (m (a + 6) % 256) * 256 ^ 6
    + (m (a + 7) % 256) * 256 ^ 7

/-- Write of the 64-bit word `v` at address `a`
(`memcpy(a, &v, 8)` or `*(unsigned long *)a = v`). -/
def store (m : Mem) (a v : Nat) : Mem :=
  fun x => if a ≤ x ∧ x < a + 8 then (v / 256 ^ (x - a)) % 256 else m x

/-- The library call `memcpy(dst, src, n)`: the `n` source bytes are read
before any byte is written. -/
def memcpy (m : Mem) (dst src n : Nat) : Mem :=
  fun x => if dst ≤ x ∧ x < dst + n then m (src + (x - dst)) else m x

/-- The library call `memset(dst, c, n)`. -/
def memset (m : Mem) (dst c n : Nat) : Mem :=
  fun x => if dst ≤ x ∧ x < dst + n then c % 256 else m x

/-! ## Allocator state -/

/-- The file-level variables of `explicit.c`, together with the memory. -/
structure State where
  mem : Mem
  segment_start : Nat
  segment_end : Nat
  first_free : Nat
  last_free : Nat
  segment_size : Nat
  nused : Nat

/-! ## Helpers of `explicit.c` -/

/-- `roundup`: `(sz + mult - 1) & ~(mult - 1)`. -/
def roundup (sz mult : Nat) : Nat :=
  ((sz + mult - 1) % WORD) &&& wnot (mult - 1)

/-- `get_size`: the header word at `curHeader` with its three low bits masked. -/
def get_size (m : Mem) (curHeader : Nat) : Nat :=
  load m curHeader &&& wnot SEVEN

/-- `total_round`: round up to the alignment, then up to `MINSIZE`. -/
def total_round (sz : Nat) : Nat :=
  let size := roundup sz ALIGNMENT
  if size < MINSIZE then MINSIZE else size

/-- `coalesce`: the header at `curHeader` receives the sum of both payload
sizes plus one header width. -/
def coalesce (m : Mem) (curHeader next_pos : Nat) : Mem :=
  let new_size := (get_size m next_pos + get_size m curHeader + ALIGNMENT) % WORD
  store m curHeader new_size

/-- `update_free`: unlink the free block whose "next" field is at `next_free`
and whose "prev" field is at `prev_free`. -/
def update_free (s : State) (next_free prev_free : Nat) : State :=
  let s1 : State :=
    if load s.mem prev_free ≠ 0 then
      { s with mem := memcpy s.mem (load s.mem prev_free + MINSIZE) next_free ALIGNMENT }
    else
      { s with first_free := load s.mem next_free }
  if load s1.mem next_free ≠ 0 then
    { s1 with mem := memcpy s1.mem (load s1.mem next_free + ALIGNMENT) prev_free ALIGNMENT }
  else
    { s1 with last_free := load s1.mem prev_free }

/-- `update_param`: append the block at `curHeader` to the free list. -/
def update_param (s : State) (curHeader : Nat) : State :=
  let s1 : State :=
    if s.first_free = 0 then
      { s with first_free := curHeader,
               mem := memset s.mem (curHeader + ALIGNMENT) 0 ALIGNMENT }
    else
      { s with mem := store (store s.mem (curHeader + ALIGNMENT) s.last_free)
                        (s.last_free + MINSIZE) curHeader }
  { s1 with last_free := curHeader }

/-- `sum_free`: while the block at `next_pos` is free and is not the end of the
committed region, unlink it and merge it into the block at `new_free`. -/
def sum_free : Nat → State → Nat → Nat → Option State
  | 0, _, _, _ => none
  | fuel + 1, s, next_pos, new_free =>
    if (load s.mem next_pos &&& SEVEN) = 0 ∧ next_pos ≠ s.segment_end then
      let s1 := update_free s (next_pos + MINSIZE) (next_pos + ALIGNMENT)
      let s2 : State := { s1 with mem := coalesce s1.mem new_free next_pos }
      sum_free fuel s2 (new_free + get_size s2.mem new_free + ALIGNMENT) new_free
    else
      some s

/-- `create_new_block`: write the header of a free block of payload
`x - ALIGNMENT` right after the first `needed` payload bytes of `curHeader`,
clear its "next" field, and return its address. -/
def create_new_block (m : Mem) (curHeader needed x : Nat) : Mem × Nat :=
  let new_free := curHeader + needed + ALIGNMENT
  let size := (x + WORD - ALIGNMENT) % WORD
  let m1 := store m new_free size
  let m2 := store m1 new_free (load m1 new_free &&& wnot 1)
  let m3 := memset m2 (new_free + MINSIZE) 0 ALIGNMENT
  (m3, new_free)

/-- `create_block_past_end`: grow the last block of the committed region to
`needed` payload bytes; returns `old_ptr`, or `0` (NULL) when the segment is
too small. -/
def create_block_past_end (s : State) (curHeader needed old_ptr : Nat) : State × Nat :=
  let block_size := get_size s.mem curHeader
  let m1 := store s.mem curHeader needed
  let m2 := store m1 curHeader (load m1 curHeader ||| 1)
  let nused := (s.nused + (needed + WORD - block_size) % WORD) % WORD
  let s1 : State := { s with mem := m2, nused := nused }
  if nused > s1.segment_size then
    (s1, 0)
  else
    ({ s1 with segment_end := s1.segment_start + nused }, old_ptr)

/-- `myinit`. -/
def myinit (s : State) (heap_start heap_size : Nat) : State × Bool :=
  if heap_start = 0 ∨ heap_size < MINHEAP then
    (s, false)
  else
    ({ s with segment_start := heap_start, segment_end := heap_start,
              segment_size := heap_size, first_free := 0, last_free := 0,
              nused := 0 }, true)

/-- The body of the search loop of `mymalloc` for a free block at `cur_free`
whose payload `size` is at least `needed`: unlink it, split it when the
leftover exceeds `MINSIZE`, mark it allocated. -/
def mymalloc_take (s : State) (cur_free needed size : Nat) : State × Nat :=
  let ptr := cur_free + ALIGNMENT
  let s1 := update_free s (cur_free + MINSIZE) (cur_free + ALIGNMENT)
  let s2 : State := { s1 with mem := store s1.mem cur_free needed }
  let x := size - needed
  let s3 : State :=
    if x > MINSIZE then
      let r := create_new_block s2.mem cur_free needed x
      let new_free := r.2
      if s2.first_free = 0 then
        { s2 with first_free := new_free,
                  mem := memset r.1 (new_free + ALIGNMENT) 0 ALIGNMENT,
                  last_free := new_free }
      else
        { s2 with mem := store (store r.1 (new_free + ALIGNMENT) s2.last_free)
                           (s2.last_free + MINSIZE) new_free,
                  last_free := new_free }
    else
      { s2 with mem := store s2.mem cur_free size }
  ({ s3 with mem := store s3.mem cur_free (load s3.mem cur_free ||| 1) }, ptr)

/-- The tail of `mymalloc`: a new block at the end of the committed region. -/
def mymalloc_bump (s : State) (needed : Nat) : State × Nat :=
  let header := s.segment_start + s.nused
  let m1 := store s.mem header needed
  let m2 := store m1 header (load m1 header ||| 1)
  let nused := (s.nused + (needed + ALIGNMENT) % WORD) % WORD
  let ptr := header + ALIGNMENT
  ({ s with mem := m2, nused := nused, segment_end := ptr + needed }, ptr)

/-- The search loop of `mymalloc`, from the free block `cur_free`. -/
def mymalloc_loop : Nat → State → Nat → Nat → Option (State × Nat)
  | 0, _, _, _ => none
  | fuel + 1, s, needed, cur_free =>
    if cur_free ≠ 0 then
      let size := get_size s.mem cur_free
      if size ≥ needed then
        some (mymalloc_take s cur_free needed size)
      else
        mymalloc_loop fuel s needed (load s.mem (cur_free + MINSIZE))
    else
      some (mymalloc_bump s needed)

/-- `mymalloc`; the pointer `0` is NULL. -/
def mymalloc (fuel : Nat) (s : State) (requested_size : Nat) : Option (State × Nat) :=
  let needed := total_round requested_size
  if requested_size = 0 ∨ (needed + s.nused) % WORD > s.segment_size then
    some (s, 0)
  else
    mymalloc_loop fuel s needed s.first_free

/-- `myfree`. -/
def myfree (fuel : Nat) (s : State) (ptr : Nat) : Option State :=
  if ptr = 0 then
    some s
  else
    let curHeader := ptr - ALIGNMENT
    let m1 := store s.mem curHeader (load s.mem curHeader &&& wnot 1)
    let size := get_size m1 curHeader
    let next_pos := curHeader + size + ALIGNMENT
    let m2 := memset m1 (curHeader + MINSIZE) 0 ALIGNMENT
    (sum_free fuel { s with mem := m2 } next_pos curHeader).map
      (fun s1 => update_param s1 curHeader)

/-- `null_case`: the two degenerate cases of `myrealloc`. -/
def null_case (fuel : Nat) (s : State) (old_ptr new_size : Nat) : Option (State × Nat) :=
  if old_ptr = 0 then
    if new_size = 0 then some (s, 0) else mymalloc fuel s new_size
  else
    (myfree fuel s old_ptr).map (fun s1 => (s1, 0))

/-- `remalloc`: allocate a new block, copy `new_size` bytes from the old
payload, release the old block.  The result of `mymalloc` is not tested: when it
is NULL the copy writes at address 0, which the embedding, whose memory is
total, carries out where the C program has undefined behaviour. -/
def remalloc (fuel : Nat) (s : State) (new_size old_ptr : Nat) : Option (State × Nat) :=
  (mymalloc fuel s new_size).bind fun r =>
    let new_ptr := r.2
    let s1 : State := { r.1 with mem := memcpy r.1.mem new_ptr old_ptr new_size }
    (myfree fuel s1 old_ptr).map (fun s2 => (s2, new_ptr))

/-- Outcome of the in-place growth loop of `myrealloc`: either the function
returned from inside the loop, or the loop exited with the final `next_pos`. -/
inductive Grow where
  | returned (s : State) (ptr : Nat)
  | exited (s : State) (next_pos : Nat)

/-- The growth loop of `myrealloc`: absorb the free blocks that follow
`curHeader` until the payload reaches `needed`. -/
def myrealloc_loop : Nat → State → Nat → Nat → Nat → Nat → Option Grow
  | 0, _, _, _, _, _ => none
  | fuel + 1, s, curHeader, needed, old_ptr, next_pos =>
    if (load s.mem next_pos &&& SEVEN) = 0 ∧ next_pos ≠ s.segment_end then
      let s1 := update_free s (next_pos + MINSIZE) (next_pos + ALIGNMENT)
      let s2 : State := { s1 with mem := coalesce s1.mem curHeader next_pos }
      let total_size := get_size s2.mem curHeader
      if total_size ≥ needed then
        let x := total_size - needed
        if x > MINSIZE then
          let m1 := store s2.mem curHeader needed
          let m2 := store m1 curHeader (load m1 curHeader ||| 1)
          let r := create_new_block m2 curHeader needed x
          some (Grow.returned (update_param { s2 with mem := r.1 } r.2) old_ptr)
        else
          some (Grow.returned
            { s2 with mem := store s2.mem curHeader (load s2.mem curHeader ||| 1) } old_ptr)
      else
        myrealloc_loop fuel s2 curHeader needed old_ptr
          (curHeader + get_size s2.mem curHeader + ALIGNMENT)
    else
      some (Grow.exited s next_pos)

/-- The last two statements of `myrealloc`, reached with the final `next_pos`. -/
def myrealloc_tail (fuel : Nat) (s : State) (curHeader needed old_ptr new_size next_pos : Nat) :
    Option (State × Nat) :=
  if next_pos = s.segment_end then
    some (create_block_past_end s curHeader needed old_ptr)
  else
    remalloc fuel s new_size old_ptr

/-- `myrealloc`. -/
def myrealloc (fuel : Nat) (s : State) (old_ptr new_size : Nat) : Option (State × Nat) :=
  if old_ptr = 0 ∨ new_size = 0 then
    null_case fuel s old_ptr new_size
  else
    let curHeader := old_ptr - ALIGNMENT
    let old_size := get_size s.mem curHeader
    let next_pos := curHeader + ALIGNMENT + old_size
    let needed := total_round new_size
    if needed = old_size then
      some (s, old_ptr)
    else if old_size > needed then
      let x := old_size - needed
      if x > MINSIZE then
        let m1 := store s.mem curHeader needed
        let m2 := store m1 curHeader (load m1 curHeader ||| 1)
        let r := create_new_block m2 curHeader needed x
        (sum_free fuel { s with mem := r.1 } next_pos r.2).map
          (fun s1 => (update_param s1 r.2, old_ptr))
      else
        some (s, old_ptr)
    else
      (myrealloc_loop fuel s curHeader needed old_ptr next_pos).bind fun g =>
        match g with
        | Grow.returned s1 ptr => some (s1, ptr)
        | Grow.exited s1 np => myrealloc_tail fuel s1 curHeader needed old_ptr new_size np

/-- The block walk of `validate_heap`, from the header at `cur`. -/
def validate_loop : Nat → State → Nat → Option Bool
  | 0, _, _ => none
  | fuel + 1, s, cur =>
    if cur ≠ s.segment_end then
      if (SIX &&& load s.mem cur) ≠ 0 then
        some false
      else
        validate_loop fuel s (cur + get_size s.mem cur + ALIGNMENT)
    else
      some true

/-- `validate_heap` (the diagnostic output and the breakpoint are left out). -/
def validate_heap (fuel : Nat) (s : State) : Option Bool :=
  if s.nused > s.segment_size then
    some false
  else
    validate_loop fuel s s.segment_start

/-! ## Callers -/

/-- A machine state before `myinit`: zeroed memory, zeroed globals. -/
def heap0 : State := ⟨fun _ => 0, 0, 0, 0, 0, 0, 0⟩

/-- The caller stores the 64-bit word `v` at address `p`, inside a payload it
owns. -/
def caller_write (s : State) (p v : Nat) : State :=
  { s with mem := store s.mem p v }

/-- A free list that ends: `l` lists the blocks reached from `p` by following
"next" fields up to the null pointer. -/
def FreeChain (m : Mem) : Nat → List Nat → Prop
  | p, [] => p = 0
  | p, a :: l => p = a ∧ a ≠ 0 ∧ FreeChain m (load m (a + MINSIZE)) l

/-- A free-list walk: `l` lists the blocks passed, in order, from `p` before the
block `c` is reached. -/
def WalkTo (m : Mem) : Nat → List Nat → Nat → Prop
  | p, [], c => p = c ∧ c ≠ 0
  | p, a :: l, c => p = a ∧ a ≠ 0 ∧ WalkTo m (load m (a + MINSIZE)) l c

instance instDecidableFreeChain (m : Mem) : (p : Nat) → (l : List Nat) →
    Decidable (FreeChain m p l)
  | p, [] => inferInstanceAs (Decidable (p = 0))
  | p, a :: l =>
    have := instDecidableFreeChain m (load m (a + MINSIZE)) l
    inferInstanceAs (Decidable (p = a ∧ a ≠ 0 ∧ FreeChain m (load m (a + MINSIZE)) l))

instance instDecidableWalkTo (m : Mem) : (p : Nat) → (l : List Nat) → (c : Nat) →
    Decidable (WalkTo m p l c)
  | p, [], c => inferInstanceAs (Decidable (p = c ∧ c ≠ 0))
  | p, a :: l, c =>
    have := instDecidableWalkTo m (load m (a + MINSIZE)) l c
    inferInstanceAs (Decidable (p = a ∧ a ≠ 0 ∧ WalkTo m (load m (a + MINSIZE)) l c))

/-! ## Well-formed heaps -/

/-- A block of the committed region: the address of its header, its payload
size, and its status bit. -/
structure Blk where
  addr : Nat
  size : Nat
  used : Bool
deriving DecidableEq

/-- The blocks `bs` tile the addresses from `a` to `e`: each starts where the
one before it ends, and each payload is a multiple of 8, at least `MINSIZE`. -/
def Chain : Nat → List Blk → Nat → Prop
  | a, [], e => a = e
  | a, b :: bs, e =>
    b.addr = a ∧ 16 ≤ b.size ∧ b.size % 8 = 0 ∧ Chain (a + 8 + b.size) bs e

/-- The header word of a block: its payload size, plus one when it is allocated. -/
def Blk.hdr (b : Blk) : Nat := b.size + (if b.used then 1 else 0)

/-- The memory holds the header word of every block of `bs`. -/
def Hdrs (m : Mem) (bs : List Blk) : Prop := ∀ b ∈ bs, load m b.addr = b.hdr

/-- The addresses of the free blocks of `bs`, in address order. -/
def freeOf (bs : List Blk) : List Nat :=
  (bs.filter (fun b => !b.used)).map Blk.addr

/-- A stretch of the doubly linked free list: starting from the pointer `p`,
the nodes are `l`, the "prev" field of the first node is `prev`, the "next" field
of the last node is `t`, and `last` is the last node (`prev` for no node). -/
def DL (m : Mem) : Nat → Nat → List Nat → Nat → Nat → Prop
  | prev, p, [], last, t => p = t ∧ last = prev
  | prev, p, a :: l, last, t =>
    p = a ∧ a ≠ 0 ∧ load m (a + ALIGNMENT) = prev ∧ DL m a (load m (a + MINSIZE)) l last t

/-- A well-formed heap: the blocks `bs` tile the committed region, the memory
holds their headers, and the free list, from `first_free` to `last_free`, links
the nodes `fl`, which are the free blocks of `bs` in some order. -/
structure Heap (s : State) (bs : List Blk) (fl : List Nat) : Prop where
  start_ne : s.segment_start ≠ 0
  end_lt : s.segment_end < WORD
  chain : Chain s.segment_start bs s.segment_end
  hdrs : Hdrs s.mem bs
  links : DL s.mem 0 s.first_free fl s.last_free 0
  perm : fl.Perm (freeOf bs)

instance instDecidableChain : (a : Nat) → (bs : List Blk) → (e : Nat) → Decidable (Chain a bs e)
  | a, [], e => inferInstanceAs (Decidable (a = e))
  | a, b :: bs, e =>
    have := instDecidableChain (a + 8 + b.size) bs e
    inferInstanceAs (Decidable (b.addr = a ∧ 16 ≤ b.size ∧ b.size % 8 = 0 ∧
      Chain (a + 8 + b.size) bs e))

instance instDecidableHdrs (m : Mem) (bs : List Blk) : Decidable (Hdrs m bs) :=
  inferInstanceAs (Decidable (∀ b ∈ bs, load m b.addr = b.hdr))

instance instDecidableDL (m : Mem) : (prev p : Nat) → (l : List Nat) → (last t : Nat) →
    Decidable (DL m prev p l last t)
  | prev, p, [], last, t => inferInstanceAs (Decidable (p = t ∧ last = prev))
  | prev, p, a :: l, last, t =>
    have := instDecidableDL m a (load m (a + MINSIZE)) l last t
    inferInstanceAs (Decidable (p = a ∧ a ≠ 0 ∧ load m (a + ALIGNMENT) = prev ∧
      DL m a (load m (a + MINSIZE)) l last t))

/-- A heap in which the block `c` is detached: the blocks `pre`, `c`, `rest`
tile the committed region, the header of `c` holds its size with the status bit
in either state, and the free list links the free blocks of `pre` and `rest`
only.  This is the state of the heap while `c` is being released or resized. -/
structure Detached (s : State) (pre : List Blk) (c : Blk) (rest : List Blk)
    (fl : List Nat) : Prop where
  start_ne : s.segment_start ≠ 0
  end_lt : s.segment_end < WORD
  chain : Chain s.segment_start (pre ++ c :: rest) s.segment_end
  hpre : Hdrs s.mem pre
  hrest : Hdrs s.mem rest
  hcur : load s.mem c.addr = c.size ∨ load s.mem c.addr = c.size + 1
  links : DL s.mem 0 s.first_free fl s.last_free 0
  perm : fl.Perm (freeOf pre ++ freeOf rest)

/-- The bytes taken by the blocks `bs`, headers included. -/
def span (bs : List Blk) : Nat := (bs.map (fun b => 8 + b.size)).sum

/-- The free list `fl` without the blocks `ab`, order kept. -/
def without (fl : List Nat) (ab : List Blk) : List Nat :=
  fl.filter (fun a => decide (a ∉ ab.map Blk.addr))

/-- The two statements at the head of the body of both merge loops (`sum_free`
and the growth loop of `myrealloc`): unlink the block at `next_pos`, then add
its size and header to the block at `cur`. -/
def absorb (s : State) (cur next_pos : Nat) : State :=
  let s1 := update_free s (next_pos + MINSIZE) (next_pos + ALIGNMENT)
  { s1 with mem := coalesce s1.mem cur next_pos }

/-- The walk of `validate_heap` and `dump_heap`: the block headers at `l`, in
order, take the addresses from `a` to `e`, each block starting before `e` and
ending, by the size its header records, where the next one starts. -/
def Walk (m : Mem) : Nat → List Nat → Nat → Prop
  | a, [], e => a = e
  | a, x :: l, e => x = a ∧ a < e ∧ Walk m (a + get_size m a + ALIGNMENT) l e

instance instDecidableWalk (m : Mem) : (a : Nat) → (l : List Nat) → (e : Nat) →
    Decidable (Walk m a l e)
  | a, [], e => inferInstanceAs (Decidable (a = e))
  | a, x :: l, e =>
    have := instDecidableWalk m (a + get_size m a + ALIGNMENT) l e
    inferInstanceAs (Decidable (x = a ∧ a < e ∧ Walk m (a + get_size m a + ALIGNMENT) l e))

/-- The statements of the growth loop of `myrealloc` that follow the test
`total_size >= needed`, up to the `return`: split off the excess as a free block
when it exceeds `MINSIZE`, and set the status bit again. -/
def grow_done (s : State) (cur needed total : Nat) : State :=
  if total - needed > MINSIZE then
    let m1 := store s.mem cur needed
    let m2 := store m1 cur (load m1 cur ||| 1)
    let r := create_new_block m2 cur needed (total - needed)
    update_param { s with mem := r.1 } r.2
  else
    { s with mem := store s.mem cur (load s.mem cur ||| 1) }

/-- The `n` bytes from the address `p` lie in the segment, from `segment_start`
to `segment_start + segment_size`. -/
def in_segment (s : State) (p n : Nat) : Prop :=
  s.segment_start ≤ p ∧ p + n ≤ s.segment_start + s.segment_size

instance instDecidableInSegment (s : State) (p n : Nat) : Decidable (in_segment s p n) :=
  inferInstanceAs (Decidable (s.segment_start ≤ p ∧ p + n ≤ s.segment_start + s.segment_size))

/-- The final `next_pos` of a growth loop that exited; `none` when `myrealloc`
returned from inside the loop. -/
def Grow.exit_pos : Grow → Option Nat
  | Grow.returned _ _ => none
  | Grow.exited _ np => some np

/-! ## Call sequences used as concrete inputs -/

/-- The allocator state after a call sequence that is cut short when a loop
runs out of fuel; `heap0` stands for the cut. -/
def stateOf (r : Option State) : State :=
  match r with
  | some s => s
  | none => heap0

/-- Three allocations, the second of `2 ^ 64 - 24` bytes:
`myinit(4096, 1024); a = mymalloc(16); b = mymalloc(2^64 - 24); c = mymalloc(16)`.
The result is the final state and the pointers `a`, `b`, `c`. -/
def overflow_trace : Option (State × Nat × Nat × Nat) := do
  let s0 := (myinit heap0 4096 1024).1
  let (s1, a) ← mymalloc 1 s0 16
  let (s2, b) ← mymalloc 1 s1 (2 ^ 64 - 24)
  let (s3, c) ← mymalloc 1 s2 16
  pure (s3, a, b, c)

/-- One allocation of `2 ^ 64 - 1` bytes: `myinit(4096, 1024); p = mymalloc(2^64 - 1)`. -/
def huge_request_trace : Option (State × Nat) :=
  mymalloc 1 (myinit heap0 4096 1024).1 (2 ^ 64 - 1)

/-- A full segment with a free block in it:
`myinit(4096, 48); a = mymalloc(16); b = mymalloc(16); myfree(a); c = mymalloc(16)`.
The result is the state before the last call, and the pointers `a` and `c`. -/
def early_exit_trace : Option (State × Nat × Nat) := do
  let s0 := (myinit heap0 4096 48).1
  let (s1, a) ← mymalloc 1 s0 16
  let (s2, _) ← mymalloc 1 s1 16
  let s3 ← myfree 1 s2 a
  let (_, c) ← mymalloc 2 s3 16
  pure (s3, a, c)

/-- The reuse scenario up to the release:
`myinit(4096, 1024); a = mymalloc(100); b = mymalloc(200); myfree(a)`. -/
def reuse_state : State :=
  stateOf (do
    let s0 := (myinit heap0 4096 1024).1
    let (s1, a) ← mymalloc 1 s0 100
    let (s2, _) ← mymalloc 1 s1 200
    myfree 1 s2 a)

/-- The coalescing scenario:
`myinit(4096, 1024); a = mymalloc(50); b = mymalloc(50); myfree(a); myfree(b)`.
The result is the final state and the pointers `a`, `b`. -/
def two_free_trace : Option (State × Nat × Nat) := do
  let s0 := (myinit heap0 4096 1024).1
  let (s1, a) ← mymalloc 1 s0 50
  let (s2, b) ← mymalloc 1 s1 50
  let s3 ← myfree 1 s2 a
  let s4 ← myfree 1 s3 b
  pure (s4, a, b)

/-- Four blocks of which the first and the third were released:
`myinit(4096, 1024); a = mymalloc(16); b = mymalloc(16); c = mymalloc(16);
d = mymalloc(16); myfree(a); myfree(c)`.  The block of `b`, at 4120, is allocated
and lies between two free blocks. -/
def merge_state : State :=
  stateOf (do
    let s0 := (myinit heap0 4096 1024).1
    let (s1, a) ← mymalloc 1 s0 16
    let (s2, _) ← mymalloc 1 s1 16
    let (s3, c) ← mymalloc 1 s2 16
    let (s4, _) ← mymalloc 1 s3 16
    let s5 ← myfree 1 s4 a
    myfree 1 s5 c)

/-- A request that fits the capacity test without its header:
`myinit(4096, 24); p = mymalloc(24)`. -/
def header_overrun_trace : Option (State × Nat) :=
  mymalloc 1 (myinit heap0 4096 24).1 24

/-- A resize that cannot be served:
`myinit(4096, 64); a = mymalloc(16); q = myrealloc(a, 100)`.
The result is the state before the resize, the state after it, `a` and `q`. -/
def failed_extension_trace : Option (State × State × Nat × Nat) := do
  let s0 := (myinit heap0 4096 64).1
  let (s1, a) ← mymalloc 1 s0 16
  let (s2, q) ← myrealloc 1 s1 a 100
  pure (s1, s2, a, q)

/-- A resize to `2 ^ 64 - 1` bytes:
`myinit(4096, 1024); a = mymalloc(100)`, then the caller stores `12345` in the
third word of `a`, and calls `q = myrealloc(a, 2^64 - 1)`.
The result is the final state, `a`, `q`, the payload size recorded for `a`
before the resize and the third word of `a` before the resize. -/
def truncating_resize_trace : Option (State × Nat × Nat × Nat × Nat) := do
  let s0 := (myinit heap0 4096 1024).1
  let (s1, a) ← mymalloc 1 s0 100
  let s2 := caller_write s1 (a + 16) 12345
  let (s3, q) ← myrealloc 1 s2 a (2 ^ 64 - 1)
  pure (s3, a, q, get_size s2.mem (a - ALIGNMENT), load s2.mem (a + 16))

/-- A resize that can neither grow in place nor move:
`myinit(4096, 96); a = mymalloc(16); b = mymalloc(16)`, then the caller stores
`11111` and `22222` in the two words of `a`, and calls `q = myrealloc(a, 200)`.
The result is the state before the resize, the state after it, `a` and `q`. -/
def failed_relocation_trace : Option (State × State × Nat × Nat) := do
  let s0 := (myinit heap0 4096 96).1
  let (s1, a) ← mymalloc 1 s0 16
  let (s2, _) ← mymalloc 1 s1 16
  let s3 := caller_write (caller_write s2 a 11111) (a + 8) 22222
  let (s4, q) ← myrealloc 1 s3 a 200
  pure (s3, s4, a, q)

/-- The three allocations of `overflow_trace`, then the release of the third:
`myinit(4096, 1024); a = mymalloc(16); b = mymalloc(2^64 - 24); c = mymalloc(16);
myfree(c)`.  The result is the final state and the pointers `a`, `b`, `c`. -/
def overlap_release_trace : Option (State × Nat × Nat × Nat) := do
  let s0 := (myinit heap0 4096 1024).1
  let (s1, a) ← mymalloc 1 s0 16
  let (s2, b) ← mymalloc 1 s1 (2 ^ 64 - 24)
  let (s3, c) ← mymalloc 1 s2 16
  let s4 ← myfree 1 s3 c
  pure (s4, a, b, c)

/-- One allocated block of 104 bytes: `myinit(4096, 1024); a = mymalloc(100)`. -/
def one_block_state : State :=
  stateOf ((mymalloc 1 (myinit heap0 4096 1024).1 100).map Prod.fst)

/-- A resize that moves the block, for a size close to `2 ^ 64`:
`myinit(4096, 1024); a = mymalloc(16); b = mymalloc(16)`; the word at 8192, which
is memory of the program outside the segment, holds 777; then
`q = myrealloc(a, 2^64 - 24)`.  The result is the state before the resize, the
state after it, `a` and `q`. -/
def relocation_overrun_trace : Option (State × State × Nat × Nat) := do
  let s0 := (myinit heap0 4096 1024).1
  let (s1, a) ← mymalloc 1 s0 16
  let (s2, _) ← mymalloc 1 s1 16
  let s3 : State := { s2 with mem := store s2.mem 8192 777 }
  let (s4, q) ← myrealloc 1 s3 a (2 ^ 64 - 24)
  pure (s3, s4, a, q)

/-- The state left by the resize of `failed_extension_trace` that could not be
served. -/
def failed_extension_state : State :=
  stateOf (failed_extension_trace.map (fun r => r.2.1))

/-- A resize that cannot be served, with a block in the free list:
`myinit(4096, 96); x = mymalloc(16); a = mymalloc(16); myfree(x);
q = myrealloc(a, 200)`.  The result is the final state, `x`, `a` and `q`. -/
def stale_list_trace : Option (State × Nat × Nat × Nat) := do
  let s0 := (myinit heap0 4096 96).1
  let (s1, x) ← mymalloc 1 s0 16
  let (s2, a) ← mymalloc 1 s1 16
  let s3 ← myfree 1 s2 x
  let (s4, q) ← myrealloc 1 s3 a 200
  pure (s4, x, a, q)

/-! ## Bit masks -/

theorem and_seven (x : Nat) : x &&& SEVEN = x % 8 := Nat.and_pow_two_sub_one_eq_mod x 3

theorem and_even_mask (x m : Nat) (hm : m % 2 = 0) :
    (x &&& m) = 2 * (x / 2 &&& m / 2) := by
  have h1 : (x &&& m) / 2 = x / 2 &&& m / 2 := Nat.and_div_two
  have h2 : ¬ ((x &&& m) % 2 = 1) := by
    rw [Nat.and_mod_two_eq_one]; omega
  omega

theorem and_wnot_seven (x : Nat) (hx : x < WORD) : x &&& wnot SEVEN = x / 8 * 8 := by
  have hw : wnot SEVEN = 18446744073709551608 := by decide
  have hx' : x < 18446744073709551616 := hx
  have e1 := and_even_mask x 18446744073709551608 (by norm_num)
  have e2 := and_even_mask (x / 2) 9223372036854775804 (by norm_num)
  have e3 := and_even_mask (x / 2 / 2) 4611686018427387902 (by norm_num)
  have e4 : x / 2 / 2 / 2 &&& 2305843009213693951 = x / 2 / 2 / 2 :=
    @Nat.and_pow_two_sub_one_of_lt_two_pow 61 _ (by omega)
  norm_num at e1 e2 e3
  rw [hw, e1, e2, e3, e4]; omega

theorem and_wnot_one (x : Nat) (hx : x < WORD) : x &&& wnot 1 = x / 2 * 2 := by
  have hw : wnot 1 = 18446744073709551614 := by decide
  have hx' : x < 18446744073709551616 := hx
  have e1 := and_even_mask x 18446744073709551614 (by norm_num)
  have e4 : x / 2 &&& 9223372036854775807 = x / 2 :=
    @Nat.and_pow_two_sub_one_of_lt_two_pow 63 _ (by omega)
  norm_num at e1
  rw [hw, e1, e4]; omega

theorem or_one (x : Nat) : x ||| 1 = x / 2 * 2 + 1 := by
  have h1 : (x ||| 1) / 2 = x / 2 ||| 1 / 2 := Nat.or_div_two
  have h2 : (x ||| 1) % 2 = 1 := by rw [Nat.or_mod_two_eq_one]; omega
  simp at h1
  omega

theorem six_and (x : Nat) : SIX &&& x = x % 8 / 2 * 2 := by
  have e1 : SIX &&& x = x &&& 6 := Nat.and_comm _ _
  have e2 := and_even_mask x 6 (by norm_num)
  have e3 : x / 2 &&& 3 = x / 2 % 4 := Nat.and_pow_two_sub_one_eq_mod (x / 2) 2
  norm_num at e2
  rw [e1, e2, e3]; omega

theorem roundup_eq (sz : Nat) : roundup sz ALIGNMENT = (sz + 7) % WORD / 8 * 8 := by
  have h : wnot (ALIGNMENT - 1) = wnot SEVEN := rfl
  unfold roundup
  rw [h, and_wnot_seven _ (Nat.mod_lt _ (by decide))]
  rfl

theorem total_round_eq (sz : Nat) :
    total_round sz = if (sz + 7) % WORD / 8 * 8 < 16 then 16 else (sz + 7) % WORD / 8 * 8 := by
  unfold total_round
  simp only [roundup_eq]
  rfl

theorem total_round_lt (sz : Nat) : total_round sz < WORD := by
  rw [total_round_eq]; unfold WORD; split <;> omega

theorem total_round_ge (sz : Nat) : 16 ≤ total_round sz := by
  rw [total_round_eq]; split <;> omega

theorem total_round_mod (sz : Nat) : total_round sz % 8 = 0 := by
  rw [total_round_eq]; split <;> omega

/-- Without wrap-around the rounded size covers the request. -/
theorem total_round_le (sz : Nat) (h : sz + 8 ≤ WORD) : sz ≤ total_round sz := by
  rw [total_round_eq]; unfold WORD at *; split <;> omega

/-! ## Memory -/

theorem store_in (m : Mem) (a v x : Nat) (h1 : a ≤ x) (h2 : x < a + 8) :
    store m a v x = v / 256 ^ (x - a) % 256 := by
  simp [store, h1, h2]

theorem store_out (m : Mem) (a v x : Nat) (h : x < a ∨ a + 8 ≤ x) :
    store m a v x = m x := by
  unfold store
  rw [if_neg]; omega

theorem memcpy_out (m : Mem) (d s n x : Nat) (h : x < d ∨ d + n ≤ x) :
    memcpy m d s n x = m x := by
  unfold memcpy
  rw [if_neg]; omega

theorem memcpy_in (m : Mem) (d s n x : Nat) (h1 : d ≤ x) (h2 : x < d + n) :
    memcpy m d s n x = m (s + (x - d)) := by
  unfold memcpy
  rw [if_pos]; omega

theorem memset_out (m : Mem) (d c n x : Nat) (h : x < d ∨ d + n ≤ x) :
    memset m d c n x = m x := by
  unfold memset
  rw [if_neg]; omega

theorem memset_in (m : Mem) (d c n x : Nat) (h1 : d ≤ x) (h2 : x < d + n) :
    memset m d c n x = c % 256 := by
  unfold memset
  rw [if_pos]; omega

theorem load_lt (m : Mem) (a : Nat) : load m a < WORD := by
  unfold load WORD
  norm_num
  omega

/-- A word read depends on its eight bytes only. -/
theorem load_congr (m m' : Mem) (a : Nat) (h : ∀ x, a ≤ x → x < a + 8 → m' x = m x) :
    load m' a = load m a := by
  unfold load
  rw [h a (by omega) (by omega), h (a + 1) (by omega) (by omega),
    h (a + 2) (by omega) (by omega), h (a + 3) (by omega) (by omega),
    h (a + 4) (by omega) (by omega), h (a + 5) (by omega) (by omega),
    h (a + 6) (by omega) (by omega), h (a + 7) (by omega) (by omega)]

theorem load_store_same (m : Mem) (a v : Nat) : load (store m a v) a = v % WORD := by
  unfold load WORD
  rw [store_in m a v a (by omega) (by omega), store_in m a v (a+1) (by omega) (by omega),
    store_in m a v (a+2) (by omega) (by omega), store_in m a v (a+3) (by omega) (by omega),
    store_in m a v (a+4) (by omega) (by omega), store_in m a v (a+5) (by omega) (by omega),
    store_in m a v (a+6) (by omega) (by omega), store_in m a v (a+7) (by omega) (by omega)]
  simp only [Nat.sub_self, Nat.add_sub_cancel_left]
  norm_num
  omega

theorem load_store_disj (m : Mem) (a v b : Nat) (h : b + 8 ≤ a ∨ a + 8 ≤ b) :
    load (store m a v) b = load m b :=
  load_congr _ _ _ fun x _ _ => store_out m a v x (by omega)

theorem load_memset_same (m : Mem) (a : Nat) : load (memset m a 0 ALIGNMENT) a = 0 := by
  unfold load ALIGNMENT
  rw [memset_in m a 0 8 a (by omega) (by omega), memset_in m a 0 8 (a+1) (by omega) (by omega),
    memset_in m a 0 8 (a+2) (by omega) (by omega), memset_in m a 0 8 (a+3) (by omega) (by omega),
    memset_in m a 0 8 (a+4) (by omega) (by omega), memset_in m a 0 8 (a+5) (by omega) (by omega),
    memset_in m a 0 8 (a+6) (by omega) (by omega), memset_in m a 0 8 (a+7) (by omega) (by omega)]
  norm_num

theorem load_memset_disj (m : Mem) (a c n b : Nat) (h : b + 8 ≤ a ∨ a + n ≤ b) :
    load (memset m a c n) b = load m b :=
  load_congr _ _ _ fun x _ _ => memset_out m a c n x (by omega)

theorem load_memcpy_same (m : Mem) (d s : Nat) : load (memcpy m d s ALIGNMENT) d = load m s := by
  unfold load ALIGNMENT
  rw [memcpy_in m d s 8 d (by omega) (by omega), memcpy_in m d s 8 (d+1) (by omega) (by omega),
    memcpy_in m d s 8 (d+2) (by omega) (by omega), memcpy_in m d s 8 (d+3) (by omega) (by omega),
    memcpy_in m d s 8 (d+4) (by omega) (by omega), memcpy_in m d s 8 (d+5) (by omega) (by omega),
    memcpy_in m d s 8 (d+6) (by omega) (by omega), memcpy_in m d s 8 (d+7) (by omega) (by omega)]
  simp only [Nat.sub_self, Nat.add_sub_cancel_left, Nat.add_zero]

theorem load_memcpy_disj (m : Mem) (d s n b : Nat) (h : b + 8 ≤ d ∨ d + n ≤ b) :
    load (memcpy m d s n) b = load m b :=
  load_congr _ _ _ fun x _ _ => memcpy_out m d s n x (by omega)

/-! ## Properties of `mymalloc` -/

theorem mymalloc_take_ptr (s : State) (c needed size : Nat) :
    (mymalloc_take s c needed size).2 = c + ALIGNMENT := rfl

theorem update_free_nused (s : State) (a b : Nat) : (update_free s a b).nused = s.nused := by
  unfold update_free; dsimp only; split <;> split <;> rfl

theorem update_free_segment_end (s : State) (a b : Nat) :
    (update_free s a b).segment_end = s.segment_end := by
  unfold update_free; dsimp only; split <;> split <;> rfl

theorem mymalloc_take_nused (s : State) (c needed size : Nat) :
    (mymalloc_take s c needed size).1.nused = s.nused := by
  unfold mymalloc_take
  dsimp only
  split
  · split <;> exact update_free_nused _ _ _
  · exact update_free_nused _ _ _

theorem mymalloc_take_segment_end (s : State) (c needed size : Nat) :
    (mymalloc_take s c needed size).1.segment_end = s.segment_end := by
  unfold mymalloc_take
  dsimp only
  split
  · split <;> exact update_free_segment_end _ _ _
  · exact update_free_segment_end _ _ _

/-- The search loop stops at the first block of the walk that is large enough. -/
theorem mymalloc_loop_walk (s : State) (needed : Nat) :
    ∀ (l : List Nat) (p c fuel : Nat), WalkTo s.mem p l c →
      (∀ a ∈ l, get_size s.mem a < needed) → needed ≤ get_size s.mem c → l.length < fuel →
      mymalloc_loop fuel s needed p = some (mymalloc_take s c needed (get_size s.mem c)) := by
  intro l
  induction l with
  | nil =>
    intro p c fuel hw _ hfit hfuel
    obtain ⟨rfl, hc⟩ := hw
    obtain ⟨f, rfl⟩ : ∃ f, fuel = f + 1 := ⟨fuel - 1, by simp at hfuel; omega⟩
    simp [mymalloc_loop, hc, hfit]
  | cons a l ih =>
    intro p c fuel hw hsmall hfit hfuel
    obtain ⟨rfl, ha, hw'⟩ := hw
    obtain ⟨f, rfl⟩ : ∃ f, fuel = f + 1 := ⟨fuel - 1, by simp at hfuel; omega⟩
    have h1 : get_size s.mem p < needed := hsmall p (by simp)
    have h2 : ¬ (get_size s.mem p ≥ needed) := by omega
    simp only [mymalloc_loop, ha, ne_eq, not_false_eq_true, if_true, h2, if_false]
    exact ih _ c f hw' (fun b hb => hsmall b (by simp [hb])) hfit (by simp at hfuel; omega)

/-- On a free list that ends, the search loop returns, and what it returns is
not the null pointer. -/
theorem mymalloc_loop_chain (s : State) (needed : Nat) :
    ∀ (l : List Nat) (p fuel : Nat), FreeChain s.mem p l → l.length < fuel →
      ∃ r, mymalloc_loop fuel s needed p = some r ∧ r.2 ≠ 0 := by
  intro l
  induction l with
  | nil =>
    intro p fuel hc hfuel
    obtain ⟨f, rfl⟩ : ∃ f, fuel = f + 1 := ⟨fuel - 1, by omega⟩
    have hp : p = 0 := hc
    refine ⟨mymalloc_bump s needed, by simp [mymalloc_loop, hp], ?_⟩
    simp [mymalloc_bump, ALIGNMENT]
  | cons a l ih =>
    intro p fuel hc hfuel
    obtain ⟨rfl, ha, hc'⟩ := hc
    obtain ⟨f, rfl⟩ : ∃ f, fuel = f + 1 := ⟨fuel - 1, by simp at hfuel; omega⟩
    by_cases hfit : get_size s.mem p ≥ needed
    · refine ⟨mymalloc_take s p needed (get_size s.mem p), by simp [mymalloc_loop, ha, hfit], ?_⟩
      simp [mymalloc_take_ptr, ALIGNMENT]
    · simp only [mymalloc_loop, ha, ne_eq, not_false_eq_true, if_true, hfit, if_false]
      exact ih _ f hc' (by simp at hfuel; omega)

/-- On an empty heap a request of `capacity - 8` bytes is served by a new block,
and the request of one byte that follows is refused. -/
theorem exhaust_fresh (s0 : State) (fuel : Nat) (h1 : s0.first_free = 0) (h2 : s0.nused = 0)
    (hlo : 24 ≤ s0.segment_size) (hhi : s0.segment_size + 24 ≤ WORD) (hfuel : 0 < fuel) :
    ∃ s1 p, mymalloc fuel s0 (s0.segment_size - 8) = some (s1, p) ∧ p ≠ 0 ∧
      mymalloc fuel s1 1 = some (s1, 0) := by
  obtain ⟨f, rfl⟩ : ∃ f, fuel = f + 1 := ⟨fuel - 1, by omega⟩
  have hr := total_round_eq (s0.segment_size - 8)
  have h16 : total_round 1 = 16 := by decide
  unfold WORD at hhi hr
  have hn : total_round (s0.segment_size - 8) = (s0.segment_size - 1) / 8 * 8 := by
    rw [hr]; split <;> omega
  have h3 : ¬ (s0.segment_size - 8 = 0 ∨
      (total_round (s0.segment_size - 8) + s0.nused) % WORD > s0.segment_size) := by
    rw [hn, h2]; unfold WORD; omega
  refine ⟨(mymalloc_bump s0 (total_round (s0.segment_size - 8))).1,
    (mymalloc_bump s0 (total_round (s0.segment_size - 8))).2, ?_, ?_, ?_⟩
  · simp only [mymalloc, h3, if_false, mymalloc_loop, h1, ne_eq, not_true_eq_false]
  · simp [mymalloc_bump, ALIGNMENT]
  · simp only [mymalloc, mymalloc_bump]
    rw [if_pos]
    right
    rw [h16, hn, h2]
    simp only [ALIGNMENT, WORD]
    omega


/-! ## Geometry of a tiling -/

theorem Chain_append (l1 l2 : List Blk) : ∀ (a e : Nat),
    Chain a (l1 ++ l2) e ↔ ∃ mid, Chain a l1 mid ∧ Chain mid l2 e := by
  induction l1 with
  | nil =>
    intro a e
    constructor
    · intro h; exact ⟨a, rfl, h⟩
    · rintro ⟨mid, h1, h2⟩
      have : a = mid := h1
      subst this; exact h2
  | cons b l1 ih =>
    intro a e
    simp only [List.cons_append, Chain]
    constructor
    · rintro ⟨h1, h2, h3, h4⟩
      obtain ⟨mid, h5, h6⟩ := (ih _ _).1 h4
      exact ⟨mid, ⟨h1, h2, h3, h5⟩, h6⟩
    · rintro ⟨mid, ⟨h1, h2, h3, h5⟩, h6⟩
      exact ⟨h1, h2, h3, (ih _ _).2 ⟨mid, h5, h6⟩⟩

theorem Chain_le : ∀ (bs : List Blk) (a e : Nat), Chain a bs e → a ≤ e := by
  intro bs
  induction bs with
  | nil => intro a e h; exact Nat.le_of_eq h
  | cons b bs ih =>
    intro a e h
    have := ih _ _ h.2.2.2
    omega

/-- A block of a tiling lies inside it. -/
theorem Chain_mem : ∀ (bs : List Blk) (a e : Nat), Chain a bs e → ∀ b ∈ bs,
    a ≤ b.addr ∧ b.addr + 8 + b.size ≤ e ∧ 16 ≤ b.size ∧ b.size % 8 = 0 := by
  intro bs
  induction bs with
  | nil => intro a e _ b hb; simp at hb
  | cons c bs ih =>
    intro a e h b hb
    obtain ⟨h1, h2, h3, h4⟩ := h
    rcases List.mem_cons.1 hb with rfl | hb
    · have := Chain_le _ _ _ h4
      omega
    · have := ih _ _ h4 b hb
      omega

/-- Two blocks of a tiling with the same address are the same block. -/
theorem Chain_addr_inj : ∀ (bs : List Blk) (a e : Nat), Chain a bs e → ∀ b ∈ bs, ∀ c ∈ bs,
    b.addr = c.addr → b = c := by
  intro bs
  induction bs with
  | nil => intro a e _ b hb; simp at hb
  | cons d bs ih =>
    intro a e h b hb c hc hbc
    obtain ⟨h1, h2, h3, h4⟩ := h
    rcases List.mem_cons.1 hb with hb1 | hb1 <;> rcases List.mem_cons.1 hc with hc1 | hc1
    · rw [hb1, hc1]
    · have := Chain_mem _ _ _ h4 c hc1; subst hb1; omega
    · have := Chain_mem _ _ _ h4 b hb1; subst hc1; omega
    · exact ih _ _ h4 b hb1 c hc1 hbc

/-- Two distinct blocks of a tiling do not overlap. -/
theorem Chain_sep : ∀ (bs : List Blk) (a e : Nat), Chain a bs e → ∀ b ∈ bs, ∀ c ∈ bs,
    b.addr = c.addr ∨ b.addr + 8 + b.size ≤ c.addr ∨ c.addr + 8 + c.size ≤ b.addr := by
  intro bs
  induction bs with
  | nil => intro a e _ b hb; simp at hb
  | cons d bs ih =>
    intro a e h b hb c hc
    obtain ⟨h1, h2, h3, h4⟩ := h
    rcases List.mem_cons.1 hb with hb1 | hb1 <;> rcases List.mem_cons.1 hc with hc1 | hc1
    · rw [hb1, hc1]; exact Or.inl rfl
    · have := Chain_mem _ _ _ h4 c hc1; subst hb1; omega
    · have := Chain_mem _ _ _ h4 b hb1; subst hc1; omega
    · exact ih _ _ h4 b hb1 c hc1

theorem mem_freeOf (bs : List Blk) (x : Nat) :
    x ∈ freeOf bs ↔ ∃ b ∈ bs, b.used = false ∧ b.addr = x := by
  simp [freeOf, and_assoc]

theorem freeOf_append (l1 l2 : List Blk) : freeOf (l1 ++ l2) = freeOf l1 ++ freeOf l2 := by
  simp [freeOf]

theorem freeOf_cons_used (b : Blk) (bs : List Blk) (h : b.used = true) :
    freeOf (b :: bs) = freeOf bs := by
  simp [freeOf, h]

theorem freeOf_cons_free (b : Blk) (bs : List Blk) (h : b.used = false) :
    freeOf (b :: bs) = b.addr :: freeOf bs := by
  simp [freeOf, h]

/-- The free addresses of a tiling are pairwise distinct. -/
theorem freeOf_nodup : ∀ (bs : List Blk) (a e : Nat), Chain a bs e → (freeOf bs).Nodup := by
  intro bs
  induction bs with
  | nil => intro a e _; simp [freeOf]
  | cons b bs ih =>
    intro a e h
    obtain ⟨h1, h2, h3, h4⟩ := h
    cases hb : b.used
    · rw [freeOf_cons_free b bs hb, List.nodup_cons]
      refine ⟨?_, ih _ _ h4⟩
      intro hx
      obtain ⟨c, hc, _, hca⟩ := (mem_freeOf _ _).1 hx
      have := Chain_mem _ _ _ h4 c hc
      omega
    · rw [freeOf_cons_used b bs hb]
      exact ih _ _ h4

/-! ## The doubly linked free list -/

theorem DL_congr (m m' : Mem) : ∀ (l : List Nat) (prev p last t : Nat),
    (∀ a ∈ l, load m' (a + ALIGNMENT) = load m (a + ALIGNMENT) ∧
      load m' (a + MINSIZE) = load m (a + MINSIZE)) →
    DL m prev p l last t → DL m' prev p l last t := by
  intro l
  induction l with
  | nil => intro prev p last t _ h; exact h
  | cons a l ih =>
    intro prev p last t hs h
    obtain ⟨h1, h2, h3, h4⟩ := h
    have ha := hs a (by simp)
    refine ⟨h1, h2, by rw [ha.1]; exact h3, ?_⟩
    rw [ha.2]
    exact ih _ _ _ _ (fun b hb => hs b (by simp [hb])) h4

theorem DL_append (m : Mem) (l1 l2 : List Nat) : ∀ (prev p last t : Nat),
    DL m prev p (l1 ++ l2) last t ↔ ∃ mid q, DL m prev p l1 mid q ∧ DL m mid q l2 last t := by
  induction l1 with
  | nil =>
    intro prev p last t
    constructor
    · intro h; exact ⟨prev, p, ⟨rfl, rfl⟩, h⟩
    · rintro ⟨mid, q, ⟨h1, h2⟩, h3⟩
      subst h1 h2; exact h3
  | cons a l1 ih =>
    intro prev p last t
    simp only [List.cons_append, DL]
    constructor
    · rintro ⟨h1, h2, h3, h4⟩
      obtain ⟨mid, q, h5, h6⟩ := (ih _ _ _ _).1 h4
      exact ⟨mid, q, ⟨h1, h2, h3, h5⟩, h6⟩
    · rintro ⟨mid, q, ⟨h1, h2, h3, h5⟩, h6⟩
      exact ⟨h1, h2, h3, (ih _ _ _ _).2 ⟨mid, q, h5, h6⟩⟩

theorem DL_ne_zero (m : Mem) : ∀ (l : List Nat) (prev p last t : Nat),
    DL m prev p l last t → ∀ a ∈ l, a ≠ 0 := by
  intro l
  induction l with
  | nil => intro _ _ _ _ _ a ha; simp at ha
  | cons b l ih =>
    intro prev p last t h a ha
    obtain ⟨_, h2, _, h4⟩ := h
    rcases List.mem_cons.1 ha with h | h
    · rw [h]; exact h2
    · exact ih _ _ _ _ h4 a h

/-- The last node of a stretch that has a node is one of its nodes. -/
theorem DL_last_mem (m : Mem) : ∀ (l : List Nat) (prev p last t : Nat),
    DL m prev p l last t → l ≠ [] → last ∈ l := by
  intro l
  induction l with
  | nil => intro _ _ _ _ _ h; exact absurd rfl h
  | cons b l ih =>
    intro prev p last t h _
    obtain ⟨_, _, _, h4⟩ := h
    cases l with
    | nil => 
      have : last = b := h4.2
      simp [this]
    | cons c l =>
      exact List.mem_cons_of_mem _ (ih _ _ _ _ h4 (by simp))

/-- Redirecting the "next" field of the last node of a stretch. -/
theorem DL_set_tail (m m' : Mem) (t' : Nat) : ∀ (l : List Nat) (prev p last t : Nat),
    DL m prev p l last t → l ≠ [] → l.Nodup →
    load m' (last + MINSIZE) = t' →
    (∀ a ∈ l, load m' (a + ALIGNMENT) = load m (a + ALIGNMENT) ∧
      (a ≠ last → load m' (a + MINSIZE) = load m (a + MINSIZE))) →
    DL m' prev p l last t' := by
  intro l
  induction l with
  | nil => intro _ _ _ _ _ h; exact absurd rfl h
  | cons b l ih =>
    intro prev p last t h _ hnd ht hs
    obtain ⟨h1, h2, h3, h4⟩ := h
    have hb := hs b (by simp)
    cases l with
    | nil =>
      obtain ⟨_, h6⟩ := h4
      subst h6
      exact ⟨h1, h2, by rw [hb.1]; exact h3, ht, rfl⟩
    | cons c l =>
      have hlast : last ∈ c :: l := DL_last_mem m _ _ _ _ _ h4 (by simp)
      have hne : b ≠ last := by
        intro e
        rw [← e] at hlast
        exact (List.nodup_cons.1 hnd).1 hlast
      refine ⟨h1, h2, by rw [hb.1]; exact h3, ?_⟩
      rw [hb.2 hne]
      exact ih _ _ _ _ h4 (by simp) (List.nodup_cons.1 hnd).2 ht
        (fun a ha => hs a (List.mem_cons_of_mem _ ha))

/-- The head pointer of a stretch without node is its "next" value, and a
stretch whose head pointer is null and that ends in null has no node. -/
theorem DL_head_zero (m : Mem) (l : List Nat) (prev last t : Nat)
    (h : DL m prev 0 l last t) : l = [] := by
  cases l with
  | nil => rfl
  | cons a l => exact absurd h.1.symm h.2.1

/-! ## Unlinking a node: `update_free` -/

theorem update_free_segment_start (s : State) (a b : Nat) :
    (update_free s a b).segment_start = s.segment_start := by
  unfold update_free; dsimp only; split <;> split <;> rfl

theorem update_free_segment_size (s : State) (a b : Nat) :
    (update_free s a b).segment_size = s.segment_size := by
  unfold update_free; dsimp only; split <;> split <;> rfl

/-- Unlinking the only node of the free list. -/
theorem update_free_only (s : State) (n : Nat)
    (hp : load s.mem (n + ALIGNMENT) = 0) (hn : load s.mem (n + MINSIZE) = 0) :
    (update_free s (n + MINSIZE) (n + ALIGNMENT)).mem = s.mem ∧
    (update_free s (n + MINSIZE) (n + ALIGNMENT)).first_free = 0 ∧
    (update_free s (n + MINSIZE) (n + ALIGNMENT)).last_free = 0 := by
  unfold update_free
  simp [hp, hn]

/-- Unlinking the first node of the free list, followed by the node `b`. -/
theorem update_free_first (s : State) (n b : Nat) (hb : b ≠ 0)
    (hp : load s.mem (n + ALIGNMENT) = 0) (hn : load s.mem (n + MINSIZE) = b) :
    (update_free s (n + MINSIZE) (n + ALIGNMENT)).mem
      = memcpy s.mem (b + ALIGNMENT) (n + ALIGNMENT) ALIGNMENT ∧
    (update_free s (n + MINSIZE) (n + ALIGNMENT)).first_free = b ∧
    (update_free s (n + MINSIZE) (n + ALIGNMENT)).last_free = s.last_free := by
  unfold update_free
  simp [hp, hn, hb]

/-- Unlinking the last node of the free list, preceded by the node `a`. -/
theorem update_free_last (s : State) (n a : Nat) (ha : a ≠ 0) (hsep : a + 24 ≤ n ∨ n + 24 ≤ a)
    (hp : load s.mem (n + ALIGNMENT) = a) (hn : load s.mem (n + MINSIZE) = 0) :
    (update_free s (n + MINSIZE) (n + ALIGNMENT)).mem
      = memcpy s.mem (a + MINSIZE) (n + MINSIZE) ALIGNMENT ∧
    (update_free s (n + MINSIZE) (n + ALIGNMENT)).first_free = s.first_free ∧
    (update_free s (n + MINSIZE) (n + ALIGNMENT)).last_free = a := by
  have h1 : load (memcpy s.mem (a + MINSIZE) (n + MINSIZE) ALIGNMENT) (n + MINSIZE) = 0 := by
    rw [load_memcpy_disj _ _ _ _ _ (by unfold MINSIZE ALIGNMENT; omega)]; exact hn
  have h2 : load (memcpy s.mem (a + MINSIZE) (n + MINSIZE) ALIGNMENT) (n + ALIGNMENT) = a := by
    rw [load_memcpy_disj _ _ _ _ _ (by unfold MINSIZE ALIGNMENT; omega)]; exact hp
  unfold update_free
  simp [hp, ha, h1, h2]

/-- Unlinking a node between the nodes `a` and `b`. -/
theorem update_free_middle (s : State) (n a b : Nat) (ha : a ≠ 0) (hb : b ≠ 0)
    (hsep : a + 24 ≤ n ∨ n + 24 ≤ a)
    (hp : load s.mem (n + ALIGNMENT) = a) (hn : load s.mem (n + MINSIZE) = b) :
    (update_free s (n + MINSIZE) (n + ALIGNMENT)).mem
      = memcpy (memcpy s.mem (a + MINSIZE) (n + MINSIZE) ALIGNMENT)
          (b + ALIGNMENT) (n + ALIGNMENT) ALIGNMENT ∧
    (update_free s (n + MINSIZE) (n + ALIGNMENT)).first_free = s.first_free ∧
    (update_free s (n + MINSIZE) (n + ALIGNMENT)).last_free = s.last_free := by
  have h1 : load (memcpy s.mem (a + MINSIZE) (n + MINSIZE) ALIGNMENT) (n + MINSIZE) = b := by
    rw [load_memcpy_disj _ _ _ _ _ (by unfold MINSIZE ALIGNMENT; omega)]; exact hn
  unfold update_free
  simp [hp, ha, h1, hb]

theorem nodup_split (l1 l2 : List Nat) (n : Nat) (h : (l1 ++ n :: l2).Nodup) :
    l1.Nodup ∧ l2.Nodup ∧ (∀ a ∈ l1, a ≠ n) ∧ (∀ a ∈ l2, a ≠ n) ∧
      (∀ a ∈ l1, ∀ b ∈ l2, a ≠ b) ∧ (l1 ++ l2).Nodup := by
  have h' : (n :: (l1 ++ l2)).Nodup := (List.perm_middle.nodup_iff).1 h
  obtain ⟨h1, h2⟩ := List.nodup_cons.1 h'
  obtain ⟨h3, h4, h5⟩ := List.nodup_append.1 h2
  refine ⟨h3, h4, ?_, ?_, ?_, h2⟩
  · intro a ha e; subst e; exact h1 (List.mem_append_left _ ha)
  · intro a ha e; subst e; exact h1 (List.mem_append_right _ ha)
  · intro a ha b hb e; subst e; exact h5 ha hb

/-- Unlinking the node `n` of a well-linked free list whose nodes are at least
24 bytes apart: the list without `n` is well linked, and the only bytes written
are link fields of the remaining nodes. -/
theorem update_free_unlink (s : State) (l1 l2 : List Nat) (n : Nat)
    (hdl : DL s.mem 0 s.first_free (l1 ++ n :: l2) s.last_free 0)
    (hnd : (l1 ++ n :: l2).Nodup)
    (hsep : ∀ a ∈ l1 ++ n :: l2, ∀ b ∈ l1 ++ n :: l2, a = b ∨ a + 24 ≤ b ∨ b + 24 ≤ a) :
    DL (update_free s (n + MINSIZE) (n + ALIGNMENT)).mem 0
        (update_free s (n + MINSIZE) (n + ALIGNMENT)).first_free (l1 ++ l2)
        (update_free s (n + MINSIZE) (n + ALIGNMENT)).last_free 0 ∧
      ∀ x, (∀ a ∈ l1 ++ l2, x < a + 8 ∨ a + 24 ≤ x) →
        (update_free s (n + MINSIZE) (n + ALIGNMENT)).mem x = s.mem x := by
  obtain ⟨mid, q, hA, hB⟩ := (DL_append _ _ _ _ _ _ _).1 hdl
  obtain ⟨hq, hn0, hprev, hC⟩ := hB
  subst hq
  obtain ⟨nd1, nd2, hd1, hd2, hd3, _⟩ := nodup_split l1 l2 q hnd
  have hqm : q ∈ l1 ++ q :: l2 := by simp
  have sepq : ∀ a ∈ l1 ++ q :: l2, a ≠ q → a + 24 ≤ q ∨ q + 24 ≤ a := by
    intro a ha hne
    rcases hsep a ha q hqm with h | h
    · exact absurd h hne
    · exact h
  rcases List.eq_nil_or_concat l1 with e1 | ⟨l1', z, e1⟩
  · -- no node before `q`
    subst e1
    obtain ⟨hff, hmid⟩ := hA
    subst hmid
    cases l2 with
    | nil =>
      obtain ⟨hnx, hlf⟩ := hC
      obtain ⟨em, ef, el⟩ := update_free_only s q hprev hnx
      rw [em, ef, el]
      exact ⟨⟨rfl, rfl⟩, fun _ _ => rfl⟩
    | cons b l2 =>
      obtain ⟨hnx, hb0, hbp, hD⟩ := hC
      obtain ⟨em, ef, el⟩ := update_free_first s q b hb0 hprev hnx
      rw [em, ef, el]
      have hbq : b + 24 ≤ q ∨ q + 24 ≤ b := sepq b (by simp) (hd2 b (by simp))
      have ndb := List.nodup_cons.1 nd2
      constructor
      · refine ⟨rfl, hb0, ?_, ?_⟩
        · rw [load_memcpy_same]; exact hprev
        · rw [load_memcpy_disj _ _ _ _ _ (by simp only [MINSIZE, ALIGNMENT]; omega)]
          refine DL_congr s.mem _ _ _ _ _ _ ?_ hD
          intro a ha
          have hab : a ≠ b := fun e => ndb.1 (e ▸ ha)
          have := hsep a (by simp [ha]) b (by simp)
          constructor <;>
            exact load_memcpy_disj _ _ _ _ _ (by simp only [MINSIZE, ALIGNMENT]; omega)
      · intro x hx
        have := hx b (by simp)
        exact memcpy_out _ _ _ _ _ (by simp only [MINSIZE, ALIGNMENT]; omega)
  · -- the node `z` comes before `q`
    have hl1 : l1 ≠ [] := by rw [e1]; simp
    have hz : mid ∈ l1 := DL_last_mem _ _ _ _ _ _ hA hl1
    have hz0 : mid ≠ 0 := DL_ne_zero _ _ _ _ _ _ hA mid hz
    have hzq : mid + 24 ≤ q ∨ q + 24 ≤ mid :=
      sepq mid (List.mem_append_left _ hz) (hd1 mid hz)
    cases l2 with
    | nil =>
      obtain ⟨hnx, hlf⟩ := hC
      obtain ⟨em, ef, el⟩ := update_free_last s q mid hz0 hzq hprev hnx
      rw [em, ef, el, List.append_nil]
      constructor
      · refine DL_set_tail s.mem _ 0 l1 0 _ mid q hA hl1 nd1 ?_ ?_
        · rw [load_memcpy_same]; exact hnx
        · intro a ha
          have := hsep a (List.mem_append_left _ ha) mid (List.mem_append_left _ hz)
          constructor
          · exact load_memcpy_disj _ _ _ _ _ (by simp only [MINSIZE, ALIGNMENT]; omega)
          · intro hne
            exact load_memcpy_disj _ _ _ _ _ (by simp only [MINSIZE, ALIGNMENT]; omega)
      · intro x hx
        have := hx mid (by simpa using hz)
        exact memcpy_out _ _ _ _ _ (by simp only [MINSIZE, ALIGNMENT]; omega)
    | cons b l2 =>
      obtain ⟨hnx, hb0, hbp, hD⟩ := hC
      obtain ⟨em, ef, el⟩ := update_free_middle s q mid b hz0 hb0 hzq hprev hnx
      rw [em, ef, el]
      have hbq : b + 24 ≤ q ∨ q + 24 ≤ b := sepq b (by simp) (hd2 b (by simp))
      have hzb : mid + 24 ≤ b ∨ b + 24 ≤ mid := by
        rcases hsep mid (List.mem_append_left _ hz) b (by simp) with h | h
        · exact absurd h (hd3 mid hz b (by simp))
        · exact h
      have ndb := List.nodup_cons.1 nd2
      constructor
      · refine (DL_append _ _ _ _ _ _ _).2 ⟨mid, b, ?_, ?_⟩
        · refine DL_set_tail s.mem _ b l1 0 _ mid q hA hl1 nd1 ?_ ?_
          · rw [load_memcpy_disj _ _ _ _ _ (by simp only [MINSIZE, ALIGNMENT]; omega),
              load_memcpy_same]
            exact hnx
          · intro a ha
            have h1 := hsep a (List.mem_append_left _ ha) mid (List.mem_append_left _ hz)
            have h2 : a + 24 ≤ b ∨ b + 24 ≤ a := by
              rcases hsep a (List.mem_append_left _ ha) b (by simp) with h | h
              · exact absurd h (hd3 a ha b (by simp))
              · exact h
            constructor
            · rw [load_memcpy_disj _ _ _ _ _ (by simp only [MINSIZE, ALIGNMENT]; omega),
                load_memcpy_disj _ _ _ _ _ (by simp only [MINSIZE, ALIGNMENT]; omega)]
            · intro hne
              rw [load_memcpy_disj _ _ _ _ _ (by simp only [MINSIZE, ALIGNMENT]; omega),
                load_memcpy_disj _ _ _ _ _ (by simp only [MINSIZE, ALIGNMENT]; omega)]
        · refine ⟨rfl, hb0, ?_, ?_⟩
          · rw [load_memcpy_same,
              load_memcpy_disj _ _ _ _ _ (by simp only [MINSIZE, ALIGNMENT]; omega)]
            exact hprev
          · rw [load_memcpy_disj _ _ _ _ _ (by simp only [MINSIZE, ALIGNMENT]; omega),
              load_memcpy_disj _ _ _ _ _ (by simp only [MINSIZE, ALIGNMENT]; omega)]
            refine DL_congr s.mem _ _ _ _ _ _ ?_ hD
            intro a ha
            have hab : a ≠ b := fun e => ndb.1 (e ▸ ha)
            have h1 := hsep a (by simp [ha]) b (by simp)
            have h2 : a + 24 ≤ mid ∨ mid + 24 ≤ a := by
              rcases hsep a (by simp [ha]) mid (List.mem_append_left _ hz) with h | h
              · exact absurd h.symm (hd3 mid hz a (by simp [ha]))
              · exact h
            constructor <;>
              rw [load_memcpy_disj _ _ _ _ _ (by simp only [MINSIZE, ALIGNMENT]; omega),
                load_memcpy_disj _ _ _ _ _ (by simp only [MINSIZE, ALIGNMENT]; omega)]
      · intro x hx
        have h1 := hx mid (List.mem_append_left _ hz)
        have h2 := hx b (by simp)
        rw [memcpy_out _ _ _ _ _ (by simp only [MINSIZE, ALIGNMENT]; omega),
          memcpy_out _ _ _ _ _ (by simp only [MINSIZE, ALIGNMENT]; omega)]

/-! ## Appending a node: `update_param` -/

theorem update_param_fields (s : State) (c : Nat) :
    (update_param s c).segment_start = s.segment_start ∧
    (update_param s c).segment_end = s.segment_end ∧
    (update_param s c).segment_size = s.segment_size ∧
    (update_param s c).nused = s.nused ∧
    (update_param s c).last_free = c := by
  unfold update_param; dsimp only; split <;> exact ⟨rfl, rfl, rfl, rfl, rfl⟩

/-- Appending the node `c`, whose "next" field is null, to a well-linked free
list: the list with `c` at its tail is well linked, and the only bytes written
are the "prev" field of `c` and the "next" field of the former tail. -/
theorem update_param_append (s : State) (fl : List Nat) (c : Nat)
    (hdl : DL s.mem 0 s.first_free fl s.last_free 0) (hnd : fl.Nodup)
    (hc0 : c ≠ 0) (hcW : c < WORD) (hflW : ∀ a ∈ fl, a < WORD)
    (hsepc : ∀ a ∈ fl, a + 24 ≤ c ∨ c + 24 ≤ a)
    (hsep : ∀ a ∈ fl, ∀ b ∈ fl, a = b ∨ a + 24 ≤ b ∨ b + 24 ≤ a)
    (hnext : load s.mem (c + MINSIZE) = 0) :
    DL (update_param s c).mem 0 (update_param s c).first_free (fl ++ [c])
        (update_param s c).last_free 0 ∧
      ∀ x, (x < c + 8 ∨ c + 16 ≤ x) → (∀ a ∈ fl, x < a + 16 ∨ a + 24 ≤ x) →
        (update_param s c).mem x = s.mem x := by
  cases fl with
  | nil =>
    obtain ⟨hff, hlf⟩ := hdl
    have em : (update_param s c).mem = memset s.mem (c + ALIGNMENT) 0 ALIGNMENT := by
      unfold update_param; simp [hff]
    have ef : (update_param s c).first_free = c := by
      unfold update_param; simp [hff]
    rw [em, ef, (update_param_fields s c).2.2.2.2]
    constructor
    · refine ⟨rfl, hc0, load_memset_same _ _, ?_, rfl⟩
      rw [load_memset_disj _ _ _ _ _ (by simp only [MINSIZE, ALIGNMENT]; omega)]
      exact hnext
    · intro x hx _
      exact memset_out _ _ _ _ _ (by simp only [ALIGNMENT]; omega)
  | cons a0 l =>
    have hff : s.first_free ≠ 0 := by rw [hdl.1]; exact hdl.2.1
    have hlf : s.last_free ∈ a0 :: l := DL_last_mem _ _ _ _ _ _ hdl (by simp)
    have em : (update_param s c).mem
        = store (store s.mem (c + ALIGNMENT) s.last_free) (s.last_free + MINSIZE) c := by
      unfold update_param; simp [hff]
    have ef : (update_param s c).first_free = s.first_free := by
      unfold update_param; simp [hff]
    rw [em, ef, (update_param_fields s c).2.2.2.2]
    have hlc := hsepc _ hlf
    have hlW := hflW _ hlf
    constructor
    · refine (DL_append _ _ _ _ _ _ _).2 ⟨s.last_free, c, ?_, ?_⟩
      · refine DL_set_tail s.mem _ c _ 0 _ _ 0 hdl (by simp) hnd ?_ ?_
        · rw [load_store_same]
          exact Nat.mod_eq_of_lt hcW
        · intro a ha
          have h1 := hsepc a ha
          have h2 := hsep a ha _ hlf
          constructor
          · rw [load_store_disj _ _ _ _ (by simp only [MINSIZE, ALIGNMENT]; omega),
              load_store_disj _ _ _ _ (by simp only [MINSIZE, ALIGNMENT]; omega)]
          · intro hne
            rw [load_store_disj _ _ _ _ (by simp only [MINSIZE, ALIGNMENT]; omega),
              load_store_disj _ _ _ _ (by simp only [MINSIZE, ALIGNMENT]; omega)]
      · refine ⟨rfl, hc0, ?_, ?_, rfl⟩
        · rw [load_store_disj _ _ _ _ (by simp only [MINSIZE, ALIGNMENT]; omega),
            load_store_same]
          exact Nat.mod_eq_of_lt hlW
        · rw [load_store_disj _ _ _ _ (by simp only [MINSIZE, ALIGNMENT]; omega),
            load_store_disj _ _ _ _ (by simp only [MINSIZE, ALIGNMENT]; omega)]
          exact hnext
    · intro x hx hxa
      have := hxa _ hlf
      rw [store_out _ _ _ _ (by simp only [MINSIZE]; omega),
        store_out _ _ _ _ (by simp only [ALIGNMENT]; omega)]

/-! ## Heaps with a detached block -/

theorem Chain_split (pre rest : List Blk) (c : Blk) (a e : Nat)
    (h : Chain a (pre ++ c :: rest) e) :
    Chain a pre c.addr ∧ 16 ≤ c.size ∧ c.size % 8 = 0 ∧ Chain (c.addr + 8 + c.size) rest e := by
  obtain ⟨mid, h1, h2, h3, h4, h5⟩ := (Chain_append _ _ _ _).1 h
  subst h2
  exact ⟨h1, h3, h4, h5⟩

theorem Chain_join (pre rest : List Blk) (c : Blk) (a e : Nat)
    (h1 : Chain a pre c.addr) (h2 : 16 ≤ c.size) (h3 : c.size % 8 = 0)
    (h4 : Chain (c.addr + 8 + c.size) rest e) : Chain a (pre ++ c :: rest) e :=
  (Chain_append _ _ _ _).2 ⟨c.addr, h1, rfl, h2, h3, h4⟩

theorem Hdrs_frame (m m' : Mem) (bs : List Blk) (h : Hdrs m bs)
    (hf : ∀ b ∈ bs, load m' b.addr = load m b.addr) : Hdrs m' bs :=
  fun b hb => by rw [hf b hb]; exact h b hb

theorem Hdrs_cons (m : Mem) (b : Blk) (bs : List Blk) :
    Hdrs m (b :: bs) ↔ load m b.addr = b.hdr ∧ Hdrs m bs := by
  simp [Hdrs]

theorem Hdrs_append (m : Mem) (l1 l2 : List Blk) :
    Hdrs m (l1 ++ l2) ↔ Hdrs m l1 ∧ Hdrs m l2 := by
  simp only [Hdrs, List.mem_append]
  constructor
  · intro h; exact ⟨fun b hb => h b (Or.inl hb), fun b hb => h b (Or.inr hb)⟩
  · rintro ⟨h1, h2⟩ b (hb | hb)
    · exact h1 b hb
    · exact h2 b hb

/-- Where the nodes of the free list of a heap with a detached block lie: each
is the address of a block of `pre` or of `rest`, so it stays clear of `c` and of
every other block. -/
theorem detached_node (pre rest : List Blk) (c : Blk) (fl : List Nat) (a e : Nat)
    (hch : Chain a (pre ++ c :: rest) e) (hp : fl.Perm (freeOf pre ++ freeOf rest))
    (x : Nat) (hx : x ∈ fl) :
    ∃ b ∈ pre ++ c :: rest, b.addr = x ∧ b.used = false ∧
      (b.addr + 8 + b.size ≤ c.addr ∨ c.addr + 8 + c.size ≤ b.addr) := by
  obtain ⟨h1, h2, h3, h4⟩ := Chain_split _ _ _ _ _ hch
  have hx' : x ∈ freeOf pre ++ freeOf rest := hp.mem_iff.1 hx
  rcases List.mem_append.1 hx' with h | h
  · obtain ⟨b, hb, hu, ha⟩ := (mem_freeOf _ _).1 h
    have := Chain_mem _ _ _ h1 b hb
    exact ⟨b, List.mem_append_left _ hb, ha, hu, Or.inl (by omega)⟩
  · obtain ⟨b, hb, hu, ha⟩ := (mem_freeOf _ _).1 h
    have := Chain_mem _ _ _ h4 b hb
    exact ⟨b, List.mem_append_right _ (List.mem_cons_of_mem _ hb), ha, hu, Or.inr (by omega)⟩

theorem freeOf_sublist (pre rest : List Blk) (c : Blk) :
    (freeOf pre ++ freeOf rest).Sublist (freeOf (pre ++ c :: rest)) := by
  rw [freeOf_append]
  refine List.Sublist.append (List.Sublist.refl _) ?_
  cases hc : c.used
  · rw [freeOf_cons_free c rest hc]; exact List.sublist_cons_self _ _
  · rw [freeOf_cons_used c rest hc]

theorem detached_nodup (pre rest : List Blk) (c : Blk) (fl : List Nat) (a e : Nat)
    (hch : Chain a (pre ++ c :: rest) e) (hp : fl.Perm (freeOf pre ++ freeOf rest)) :
    fl.Nodup :=
  hp.nodup_iff.2 ((freeOf_nodup _ _ _ hch).sublist (freeOf_sublist pre rest c))

/-- A node of the free list and a block of the heap: the same address, or the
block header lies outside the node. -/
theorem detached_node_block (pre rest : List Blk) (c : Blk) (fl : List Nat) (a e : Nat)
    (hch : Chain a (pre ++ c :: rest) e) (hp : fl.Perm (freeOf pre ++ freeOf rest))
    (x : Nat) (hx : x ∈ fl) (d : Blk) (hd : d ∈ pre ++ c :: rest) :
    x = d.addr ∨ x + 24 ≤ d.addr ∨ d.addr + 24 ≤ x := by
  obtain ⟨b, hb, hbx, _, _⟩ := detached_node _ _ _ _ _ _ hch hp x hx
  have h1 := Chain_sep _ _ _ hch b hb d hd
  have h2 := Chain_mem _ _ _ hch b hb
  have h3 := Chain_mem _ _ _ hch d hd
  omega

/-- Two nodes of the free list are equal or 24 bytes apart. -/
theorem detached_nodes_apart (pre rest : List Blk) (c : Blk) (fl : List Nat) (a e : Nat)
    (hch : Chain a (pre ++ c :: rest) e) (hp : fl.Perm (freeOf pre ++ freeOf rest))
    (x : Nat) (hx : x ∈ fl) (y : Nat) (hy : y ∈ fl) :
    x = y ∨ x + 24 ≤ y ∨ y + 24 ≤ x := by
  obtain ⟨d, hd, hdy, _, _⟩ := detached_node _ _ _ _ _ _ hch hp y hy
  have := detached_node_block _ _ _ _ _ _ hch hp x hx d hd
  omega

theorem get_size_of_hdr (m : Mem) (a sz : Nat) (h8 : sz % 8 = 0)
    (h : load m a = sz ∨ load m a = sz + 1) : get_size m a = sz := by
  unfold get_size
  rw [and_wnot_seven _ (load_lt m a)]
  omega

theorem without_single (l1 l2 : List Nat) (n : Blk) (h1 : ∀ a ∈ l1, a ≠ n.addr)
    (h2 : ∀ a ∈ l2, a ≠ n.addr) : without (l1 ++ n.addr :: l2) [n] = l1 ++ l2 := by
  unfold without
  rw [List.filter_append, List.filter_cons]
  have e1 : List.filter (fun a => decide (a ∉ List.map Blk.addr [n])) l1 = l1 := by
    rw [List.filter_eq_self]; intro a ha; simpa using h1 a ha
  have e2 : List.filter (fun a => decide (a ∉ List.map Blk.addr [n])) l2 = l2 := by
    rw [List.filter_eq_self]; intro a ha; simpa using h2 a ha
  rw [e1, e2]
  simp

theorem absorb_fields (s : State) (cur np : Nat) :
    (absorb s cur np).segment_start = s.segment_start ∧
    (absorb s cur np).segment_end = s.segment_end ∧
    (absorb s cur np).segment_size = s.segment_size ∧
    (absorb s cur np).nused = s.nused :=
  ⟨update_free_segment_start _ _ _, update_free_segment_end _ _ _,
    update_free_segment_size _ _ _, update_free_nused _ _ _⟩

/-- One turn of a merge loop on a heap with a detached block `c` followed by
the free block `n`: `n` leaves the free list and `c` grows by the size and the
header of `n`.  The bytes written are the header of `c` and link fields of the
remaining free blocks. -/
theorem absorb_step (s : State) (pre rest : List Blk) (c n : Blk) (fl : List Nat)
    (hD : Detached s pre c (n :: rest) fl) (hn : n.used = false) :
    Detached (absorb s c.addr n.addr) pre ⟨c.addr, c.size + 8 + n.size, c.used⟩ rest
        (without fl [n]) ∧
      load (absorb s c.addr n.addr).mem c.addr = c.size + 8 + n.size ∧
      ∀ x, (x < c.addr ∨ c.addr + 8 ≤ x) →
        (∀ a ∈ without fl [n], x < a + 8 ∨ a + 24 ≤ x) →
        (absorb s c.addr n.addr).mem x = s.mem x := by
  obtain ⟨hs0, heW, hch, hpre, hrest, hcur, hdl, hperm⟩ := hD
  obtain ⟨c1, c2, c3, c4⟩ := Chain_split _ _ _ _ _ hch
  obtain ⟨n1, n2, n3, n4⟩ := c4
  have hle := Chain_le _ _ _ n4
  have hnd := detached_nodup _ _ _ _ _ _ hch hperm
  have hnfl : n.addr ∈ fl := by
    apply hperm.mem_iff.2
    rw [freeOf_cons_free n rest hn]
    simp
  obtain ⟨l1, l2, hfl⟩ := List.append_of_mem hnfl
  subst hfl
  obtain ⟨nd1, nd2, hd1, hd2, hd3, nd12⟩ := nodup_split l1 l2 n.addr hnd
  have hw : without (l1 ++ n.addr :: l2) [n] = l1 ++ l2 := without_single l1 l2 n hd1 hd2
  rw [hw]
  have hsub : ∀ a ∈ l1 ++ l2, a ∈ l1 ++ n.addr :: l2 := by
    intro a ha
    rcases List.mem_append.1 ha with h | h
    · exact List.mem_append_left _ h
    · exact List.mem_append_right _ (List.mem_cons_of_mem _ h)
  have hne : ∀ a ∈ l1 ++ l2, a ≠ n.addr := by
    intro a ha
    rcases List.mem_append.1 ha with h | h
    · exact hd1 a h
    · exact hd2 a h
  obtain ⟨hdl1, hfr1⟩ := update_free_unlink s l1 l2 n.addr hdl hnd
    (fun a ha b hb => detached_nodes_apart _ _ _ _ _ _ hch hperm a ha b hb)
  -- headers are untouched by the unlinking
  have hhdr : ∀ d ∈ pre ++ c :: n :: rest,
      load (update_free s (n.addr + MINSIZE) (n.addr + ALIGNMENT)).mem d.addr
        = load s.mem d.addr := by
    intro d hd
    refine load_congr _ _ _ fun x hx1 hx2 => hfr1 x fun a ha => ?_
    have := detached_node_block _ _ _ _ _ _ hch hperm a (hsub a ha) d hd
    omega
  have hcm : c ∈ pre ++ c :: n :: rest := by simp
  have hnm : n ∈ pre ++ c :: n :: rest := by simp
  have hgc : get_size (update_free s (n.addr + MINSIZE) (n.addr + ALIGNMENT)).mem c.addr
      = c.size :=
    get_size_of_hdr _ _ _ c3 (by rw [hhdr c hcm]; exact hcur)
  have hgn : get_size (update_free s (n.addr + MINSIZE) (n.addr + ALIGNMENT)).mem n.addr
      = n.size :=
    get_size_of_hdr _ _ _ n3 (by
      rw [hhdr n hnm, hrest n (by simp)]; left; simp [Blk.hdr, hn])
  have hmem : (absorb s c.addr n.addr).mem
      = store (update_free s (n.addr + MINSIZE) (n.addr + ALIGNMENT)).mem c.addr
          (c.size + 8 + n.size) := by
    unfold absorb coalesce
    dsimp only
    rw [hgc, hgn]
    have : (n.size + c.size + ALIGNMENT) % WORD = c.size + 8 + n.size := by
      unfold WORD at *; unfold ALIGNMENT; omega
    rw [this]
  have hff : (absorb s c.addr n.addr).first_free
      = (update_free s (n.addr + MINSIZE) (n.addr + ALIGNMENT)).first_free := rfl
  have hlf : (absorb s c.addr n.addr).last_free
      = (update_free s (n.addr + MINSIZE) (n.addr + ALIGNMENT)).last_free := rfl
  obtain ⟨f1, f2, f3, f4⟩ := absorb_fields s c.addr n.addr
  have hsz : (c.size + 8 + n.size) % WORD = c.size + 8 + n.size := by
    unfold WORD at *; omega
  refine ⟨⟨by rw [f1]; exact hs0, by rw [f2]; exact heW, ?_, ?_, ?_, ?_, ?_, ?_⟩, ?_, ?_⟩
  · rw [f1, f2]
    exact Chain_join _ _ _ _ _ c1 (by simp only []; omega) (by simp only []; omega)
      (by simp only []; rw [show c.addr + 8 + (c.size + 8 + n.size)
        = c.addr + 8 + c.size + 8 + n.size by omega]; exact n4)
  · refine Hdrs_frame s.mem _ _ hpre fun d hd => ?_
    have := Chain_mem _ _ _ c1 d hd
    rw [hmem, load_store_disj _ _ _ _ (by omega)]
    exact hhdr d (List.mem_append_left _ hd)
  · refine Hdrs_frame s.mem _ _ (fun d hd => hrest d (List.mem_cons_of_mem _ hd)) fun d hd => ?_
    have := Chain_mem _ _ _ n4 d hd
    rw [hmem, load_store_disj _ _ _ _ (by omega)]
    exact hhdr d (by simp [hd])
  · left
    rw [hmem, load_store_same]; exact hsz
  · rw [hmem, hff, hlf]
    refine DL_congr _ _ _ _ _ _ _ ?_ hdl1
    intro a ha
    obtain ⟨b, hb, hba, _, hbc⟩ := detached_node _ _ _ _ _ _ hch hperm a (hsub a ha)
    have := Chain_mem _ _ _ hch b hb
    constructor <;>
      exact load_store_disj _ _ _ _ (by simp only [MINSIZE, ALIGNMENT]; omega)
  · have hp2 : (n.addr :: (l1 ++ l2)).Perm (n.addr :: (freeOf pre ++ freeOf rest)) := by
      refine (List.perm_middle.symm.trans hperm).trans ?_
      rw [freeOf_cons_free n rest hn]
      exact List.perm_middle
    exact hp2.cons_inv
  · rw [hmem, load_store_same]; exact hsz
  · intro x hx hxa
    rw [hmem, store_out _ _ _ _ (by omega)]
    exact hfr1 x hxa

/-! ## The merge loop of `sum_free` -/

theorem without_nil (fl : List Nat) : without fl [] = fl := by
  unfold without
  rw [List.filter_eq_self]
  intro a _; simp

theorem without_cons (fl : List Nat) (n : Blk) (ab : List Blk) :
    without (without fl [n]) ab = without fl (n :: ab) := by
  unfold without
  rw [List.filter_filter]
  congr 1
  funext a
  simp only [List.map_cons, List.map_nil, List.mem_cons, List.mem_singleton, List.not_mem_nil,
    or_false, not_or, Bool.decide_and, decide_not]
  rw [Bool.and_comm]

theorem mem_of_mem_without (fl : List Nat) (ab : List Blk) (a : Nat) (h : a ∈ without fl ab) :
    a ∈ fl :=
  List.mem_of_mem_filter h

theorem span_nil : span [] = 0 := rfl

theorem span_cons (b : Blk) (bs : List Blk) : span (b :: bs) = 8 + b.size + span bs := by
  simp [span]

theorem sum_free_succ (fuel : Nat) (s : State) (np nf : Nat) :
    sum_free (fuel + 1) s np nf
      = if (load s.mem np &&& SEVEN) = 0 ∧ np ≠ s.segment_end then
          sum_free fuel (absorb s nf np) (nf + get_size (absorb s nf np).mem nf + ALIGNMENT) nf
        else some s := rfl

/-- The merge loop of `sum_free`, started right after a detached block `c` whose
header holds its size: it returns, the blocks it has merged into `c` are the
longest run `ab` of free blocks that followed `c`, they have left the free list,
whose other nodes keep their order, and the bytes written are the header of `c`
and link fields of free blocks. -/
theorem sum_free_spec : ∀ (rest : List Blk) (s : State) (pre : List Blk) (c : Blk)
    (fl : List Nat) (fuel : Nat),
    Detached s pre c rest fl → load s.mem c.addr = c.size → rest.length < fuel →
    ∃ s' ab rest', rest = ab ++ rest' ∧ (∀ b ∈ ab, b.used = false) ∧
      (∀ b, rest'.head? = some b → b.used = true) ∧
      sum_free fuel s (c.addr + c.size + ALIGNMENT) c.addr = some s' ∧
      Detached s' pre ⟨c.addr, c.size + span ab, c.used⟩ rest' (without fl ab) ∧
      load s'.mem c.addr = c.size + span ab ∧
      (∀ x, (x < c.addr ∨ c.addr + 8 ≤ x) → (∀ a ∈ fl, x < a + 8 ∨ a + 24 ≤ x) →
        s'.mem x = s.mem x) ∧
      s'.segment_start = s.segment_start ∧ s'.segment_end = s.segment_end ∧
      s'.segment_size = s.segment_size ∧ s'.nused = s.nused := by
  intro rest
  induction rest with
  | nil =>
    intro s pre c fl fuel hD hcur hfuel
    obtain ⟨f, rfl⟩ : ∃ f, fuel = f + 1 := ⟨fuel - 1, by simp at hfuel; omega⟩
    obtain ⟨_, _, _, c4⟩ := Chain_split _ _ _ _ _ hD.chain
    have hend : c.addr + c.size + ALIGNMENT = s.segment_end := by
      have : c.addr + 8 + c.size = s.segment_end := c4
      unfold ALIGNMENT; omega
    refine ⟨s, [], [], rfl, by simp, by simp, ?_, ?_, ?_, fun _ _ _ => rfl, rfl, rfl, rfl, rfl⟩
    · rw [sum_free_succ, if_neg]
      rw [hend]; simp
    · rw [without_nil, span_nil]; exact hD
    · rw [span_nil]; exact hcur
  | cons n rest ih =>
    intro s pre c fl fuel hD hcur hfuel
    obtain ⟨f, rfl⟩ : ∃ f, fuel = f + 1 := ⟨fuel - 1, by simp at hfuel; omega⟩
    obtain ⟨_, c2, c3, c4⟩ := Chain_split _ _ _ _ _ hD.chain
    obtain ⟨n1, n2, n3, n4⟩ := c4
    have hle := Chain_le _ _ _ n4
    have hnp : c.addr + c.size + ALIGNMENT = n.addr := by unfold ALIGNMENT; omega
    have hnh : load s.mem n.addr = n.hdr := hD.hrest n (by simp)
    cases hn : n.used
    · -- the next block is free: it is merged
      obtain ⟨hD1, hc1, hfr1⟩ := absorb_step s pre rest c n fl hD hn
      obtain ⟨g1, g2, g3, g4⟩ := absorb_fields s c.addr n.addr
      have hcond : (load s.mem n.addr &&& SEVEN) = 0 ∧ n.addr ≠ s.segment_end := by
        rw [hnh, and_seven]
        simp only [Blk.hdr, hn]
        constructor
        · simp; omega
        · omega
      obtain ⟨s', ab, rest', e1, e2, e3, e4, e5, e6, e7, e8, e9, e10, e11⟩ :=
        ih (absorb s c.addr n.addr) pre ⟨c.addr, c.size + 8 + n.size, c.used⟩
          (without fl [n]) f hD1 hc1 (by simp at hfuel; omega)
      have hgs : get_size (absorb s c.addr n.addr).mem c.addr = c.size + 8 + n.size :=
        get_size_of_hdr _ _ _ (by omega) (Or.inl hc1)
      have hsp : c.size + 8 + n.size + span ab = c.size + span (n :: ab) := by
        rw [span_cons]; omega
      refine ⟨s', n :: ab, rest', by rw [e1]; rfl, ?_, e3, ?_, ?_, ?_, ?_,
        by rw [e8, g1], by rw [e9, g2], by rw [e10, g3], by rw [e11, g4]⟩
      · intro b hb
        rcases List.mem_cons.1 hb with h | h
        · rw [h]; exact hn
        · exact e2 b h
      · rw [hnp, sum_free_succ, if_pos hcond, hgs]
        exact e4
      · rw [without_cons] at e5
        rw [← hsp]; exact e5
      · rw [← hsp]; exact e6
      · intro x hx hxa
        rw [e7 x hx (fun a ha => hxa a (mem_of_mem_without _ _ _ ha))]
        exact hfr1 x hx (fun a ha => hxa a (mem_of_mem_without _ _ _ ha))
    · -- the next block is allocated: the loop exits
      refine ⟨s, [], n :: rest, rfl, by simp, by simp [hn], ?_, ?_, ?_, fun _ _ _ => rfl,
        rfl, rfl, rfl, rfl⟩
      · rw [hnp, sum_free_succ, if_neg]
        rw [hnh, and_seven]
        simp only [Blk.hdr, hn]
        simp; omega
      · rw [without_nil, span_nil]; exact hD
      · rw [span_nil]; exact hcur

/-! ## `myfree` on a well-formed heap -/

theorem myfree_eq (fuel : Nat) (s : State) (c : Nat) :
    myfree fuel s (c + ALIGNMENT)
      = (sum_free fuel
          { s with
            mem := memset (store s.mem c (load s.mem c &&& wnot 1)) (c + MINSIZE) 0 ALIGNMENT }
          (c + get_size (store s.mem c (load s.mem c &&& wnot 1)) c + ALIGNMENT) c).map
          (fun s1 => update_param s1 c) := by
  unfold myfree
  have h : c + ALIGNMENT ≠ 0 := by unfold ALIGNMENT; omega
  simp only [h, if_false, Nat.add_sub_cancel]

/-- Releasing the allocated block `c` of a well-formed heap: `myfree` returns;
the run `ab` of free blocks that followed `c` has been merged into it and taken
out of the free list; the merged block is free and is the new tail of the list.
The blocks before `c` are as they were, and the block after the merged block,
if there is one, is allocated. -/
theorem myfree_spec (s : State) (pre rest : List Blk) (c : Blk) (fl : List Nat) (fuel : Nat)
    (hH : Heap s (pre ++ c :: rest) fl) (hu : c.used = true) (hfuel : rest.length < fuel) :
    ∃ s' ab rest', rest = ab ++ rest' ∧ (∀ b ∈ ab, b.used = false) ∧
      (∀ b, rest'.head? = some b → b.used = true) ∧
      myfree fuel s (c.addr + ALIGNMENT) = some s' ∧
      Heap s' (pre ++ ⟨c.addr, c.size + span ab, false⟩ :: rest') (without fl ab ++ [c.addr]) ∧
      (∀ x, (x < c.addr ∨ c.addr + 24 ≤ x) → (∀ a ∈ fl, x < a + 8 ∨ a + 24 ≤ x) →
        s'.mem x = s.mem x) ∧
      s'.segment_start = s.segment_start ∧ s'.segment_end = s.segment_end ∧
      s'.segment_size = s.segment_size ∧ s'.nused = s.nused := by
  obtain ⟨hs0, heW, hch, hhd, hdl, hperm⟩ := hH
  obtain ⟨c1, c2, c3, c4⟩ := Chain_split _ _ _ _ _ hch
  have hle := Chain_le _ _ _ c4
  have hle1 := Chain_le _ _ _ c1
  obtain ⟨hpre, hcr⟩ := (Hdrs_append _ _ _).1 hhd
  obtain ⟨hc, hrest⟩ := (Hdrs_cons _ _ _).1 hcr
  have hch1 : load s.mem c.addr = c.size + 1 := by rw [hc]; simp [Blk.hdr, hu]
  have hperm' : fl.Perm (freeOf pre ++ freeOf rest) := by
    rw [freeOf_append, freeOf_cons_used c rest hu] at hperm; exact hperm
  -- the first statements of `myfree`
  have hclr : load s.mem c.addr &&& wnot 1 = c.size := by
    rw [and_wnot_one _ (load_lt _ _), hch1]; omega
  have hcW : c.size % WORD = c.size := by unfold WORD at *; omega
  have hgs : get_size (store s.mem c.addr c.size) c.addr = c.size :=
    get_size_of_hdr _ _ _ c3 (Or.inl (by rw [load_store_same]; exact hcW))
  rw [myfree_eq, hclr, hgs]
  have hnode : ∀ a ∈ fl, a + 24 ≤ c.addr ∨ c.addr + 8 + c.size ≤ a := by
    intro a ha
    obtain ⟨b, hb, hba, _, hbc⟩ := detached_node _ _ _ _ _ _ hch hperm' a ha
    have := Chain_mem _ _ _ hch b hb
    omega
  have hD0 : Detached
      { s with mem := memset (store s.mem c.addr c.size) (c.addr + MINSIZE) 0 ALIGNMENT }
      pre c rest fl := by
    refine ⟨hs0, heW, hch, ?_, ?_, ?_, ?_, hperm'⟩
    · refine Hdrs_frame s.mem _ _ hpre fun d hd => ?_
      have := Chain_mem _ _ _ c1 d hd
      show load (memset (store s.mem c.addr c.size) (c.addr + MINSIZE) 0 ALIGNMENT) d.addr = _
      rw [load_memset_disj _ _ _ _ _ (by simp only [MINSIZE, ALIGNMENT]; omega),
        load_store_disj _ _ _ _ (by omega)]
    · refine Hdrs_frame s.mem _ _ hrest fun d hd => ?_
      have := Chain_mem _ _ _ c4 d hd
      show load (memset (store s.mem c.addr c.size) (c.addr + MINSIZE) 0 ALIGNMENT) d.addr = _
      rw [load_memset_disj _ _ _ _ _ (by simp only [MINSIZE, ALIGNMENT]; omega),
        load_store_disj _ _ _ _ (by omega)]
    · left
      show load (memset (store s.mem c.addr c.size) (c.addr + MINSIZE) 0 ALIGNMENT) c.addr = _
      rw [load_memset_disj _ _ _ _ _ (by simp only [MINSIZE, ALIGNMENT]; omega),
        load_store_same]
      exact hcW
    · refine DL_congr s.mem _ _ _ _ _ _ ?_ hdl
      intro a ha
      have := hnode a ha
      constructor <;>
        rw [load_memset_disj _ _ _ _ _ (by simp only [MINSIZE, ALIGNMENT]; omega),
          load_store_disj _ _ _ _ (by simp only [MINSIZE, ALIGNMENT]; omega)]
  have hcur0 : load (memset (store s.mem c.addr c.size) (c.addr + MINSIZE) 0 ALIGNMENT) c.addr
      = c.size := by
    rw [load_memset_disj _ _ _ _ _ (by simp only [MINSIZE, ALIGNMENT]; omega), load_store_same]
    exact hcW
  obtain ⟨s1, ab, rest', e1, e2, e3, e4, e5, e6, e7, e8, e9, e10, e11⟩ :=
    sum_free_spec rest _ pre c fl fuel hD0 hcur0 hfuel
  obtain ⟨d0, dW, dch, dpre, drest, _, ddl, dperm⟩ := e5
  obtain ⟨p1, p2, p3, p4, p5⟩ := update_param_fields s1 c.addr
  have hs1 : s1.segment_start = s.segment_start := e8
  have hs2 : s1.segment_end = s.segment_end := e9
  obtain ⟨k1, k2, k3, k4⟩ := Chain_split _ _ _ _ _ dch
  have kle := Chain_le _ _ _ k4
  have kle1 := Chain_le _ _ _ k1
  have hnode1 : ∀ a ∈ without fl ab, a + 24 ≤ c.addr ∨ c.addr + 8 + c.size ≤ a :=
    fun a ha => hnode a (mem_of_mem_without _ _ _ ha)
  have hnode2 : ∀ a ∈ without fl ab, a + 24 ≤ s.segment_end := by
    intro a ha
    obtain ⟨b, hb, hba, _, _⟩ := detached_node _ _ _ _ _ _ hch hperm' a (mem_of_mem_without _ _ _ ha)
    have := Chain_mem _ _ _ hch b hb
    omega
  have hnext : load s1.mem (c.addr + MINSIZE) = 0 := by
    rw [load_congr _ _ _ (fun x hx1 hx2 => e7 x (by simp only [MINSIZE] at hx1; omega)
      (fun a ha => by have := hnode a ha; simp only [MINSIZE] at hx1 hx2; omega))]
    exact load_memset_same _ _
  obtain ⟨hdl2, hfr2⟩ := update_param_append s1 (without fl ab) c.addr ddl
    (detached_nodup _ _ _ _ _ _ dch dperm) (by omega) (by omega)
    (fun a ha => by have := hnode2 a ha; omega)
    (fun a ha => by have := hnode1 a ha; omega)
    (fun a ha b hb => detached_nodes_apart _ _ _ _ _ _ dch dperm a ha b hb) hnext
  -- headers after the final linking
  have hhdr2 : ∀ d ∈ pre ++ (⟨c.addr, c.size + span ab, c.used⟩ : Blk) :: rest',
      load (update_param s1 c.addr).mem d.addr = load s1.mem d.addr := by
    intro d hd
    refine load_congr _ _ _ fun x hx1 hx2 => hfr2 x ?_ fun a ha => ?_
    · have h1 := Chain_mem _ _ _ dch d hd
      have h2 := Chain_sep _ _ _ dch d hd ⟨c.addr, c.size + span ab, c.used⟩ (by simp)
      simp only [] at h2
      omega
    · have := detached_node_block _ _ _ _ _ _ dch dperm a ha d hd
      omega
  refine ⟨update_param s1 c.addr, ab, rest', e1, e2, e3, by rw [e4]; rfl, ?_, ?_,
    by rw [p1, e8], by rw [p2, e9], by rw [p3, e10], by rw [p4, e11]⟩
  · refine ⟨by rw [p1]; exact d0, by rw [p2]; exact dW, ?_, ?_, hdl2, ?_⟩
    · rw [p1, p2]
      exact Chain_join _ _ _ _ _ k1 k2 k3 k4
    · refine (Hdrs_append _ _ _).2 ⟨?_, (Hdrs_cons _ _ _).2 ⟨?_, ?_⟩⟩
      · exact Hdrs_frame s1.mem _ _ dpre fun d hd => hhdr2 d (List.mem_append_left _ hd)
      · have := hhdr2 ⟨c.addr, c.size + span ab, c.used⟩ (by simp)
        simp only [] at this
        rw [this, e6]
        simp [Blk.hdr]
      · exact Hdrs_frame s1.mem _ _ drest fun d hd =>
          hhdr2 d (List.mem_append_right _ (List.mem_cons_of_mem _ hd))
    · rw [freeOf_append, freeOf_cons_free _ rest' rfl]
      refine List.Perm.trans ?_ List.perm_middle.symm
      refine List.Perm.trans (List.perm_append_singleton _ _) ?_
      exact List.Perm.cons _ dperm
  · intro x hx hxa
    rw [hfr2 x (by omega) (fun a ha => by
      have := hxa a (mem_of_mem_without _ _ _ ha); omega)]
    rw [e7 x (by omega) hxa]
    show memset (store s.mem c.addr c.size) (c.addr + MINSIZE) 0 ALIGNMENT x = _
    rw [memset_out _ _ _ _ _ (by simp only [MINSIZE, ALIGNMENT]; omega),
      store_out _ _ _ _ (by omega)]

/-- Past the capacity test, on a state whose free list ends, `mymalloc` returns
and what it returns is not the null pointer. -/
theorem mymalloc_returns (s : State) (size : Nat) (l : List Nat) (fuel : Nat)
    (hchain : FreeChain s.mem s.first_free l) (hfuel : l.length < fuel)
    (h1 : 0 < size) (h2 : total_round size + s.nused ≤ s.segment_size) :
    ∃ s' p, mymalloc fuel s size = some (s', p) ∧ p ≠ 0 := by
  have h3 : ¬ (size = 0 ∨ (total_round size + s.nused) % WORD > s.segment_size) := by
    have := Nat.mod_le (total_round size + s.nused) WORD
    omega
  obtain ⟨r, hr, hp⟩ := mymalloc_loop_chain s (total_round size) l _ fuel hchain hfuel
  refine ⟨r.1, r.2, ?_, hp⟩
  unfold mymalloc
  simp only [h3, if_false]
  exact hr

/-! ## The walk of `validate_heap` -/

/-- On a region tiled by the blocks at `l`, the walk of `validate_heap` ends,
and its result is true when no header of `l` has bit 1 or bit 2 set. -/
theorem validate_loop_walk (s : State) : ∀ (l : List Nat) (a fuel : Nat),
    Walk s.mem a l s.segment_end → l.length < fuel →
    validate_loop fuel s a = some (decide (∀ x ∈ l, (SIX &&& load s.mem x) = 0)) := by
  intro l
  induction l with
  | nil =>
    intro a fuel hw hf
    obtain ⟨f, rfl⟩ : ∃ f, fuel = f + 1 := ⟨fuel - 1, by simp at hf; omega⟩
    have : a = s.segment_end := hw
    simp [validate_loop, this]
  | cons x l ih =>
    intro a fuel hw hf
    obtain ⟨f, rfl⟩ : ∃ f, fuel = f + 1 := ⟨fuel - 1, by simp at hf; omega⟩
    obtain ⟨rfl, h2, h3⟩ := hw
    have hne : x ≠ s.segment_end := by omega
    by_cases hb : (SIX &&& load s.mem x) = 0
    · simp only [validate_loop, hne, ne_eq, not_false_eq_true, if_true, hb, not_true_eq_false,
        if_false]
      rw [ih _ f h3 (by simp at hf; omega)]
      simp [hb]
    · simp [validate_loop, hne, hb]

/-! ## Nodes of the free list of a well-formed heap -/

theorem DL_getLast (m : Mem) : ∀ (l : List Nat) (prev p last t : Nat),
    DL m prev p l last t → last = l.getLast?.getD prev := by
  intro l
  induction l with
  | nil => intro prev p last t h; exact h.2
  | cons a l ih =>
    intro prev p last t h
    have := ih _ _ _ _ h.2.2.2
    cases l with
    | nil => simpa using this
    | cons b l => simpa using this

/-- The "next" field of the last node of a stretch holds the value the stretch
ends in, and its last node is `last`. -/
theorem DL_snoc (m : Mem) (l : List Nat) (c prev p last t : Nat)
    (h : DL m prev p (l ++ [c]) last t) :
    last = c ∧ load m (c + MINSIZE) = t ∧ load m (c + ALIGNMENT) = l.getLast?.getD prev ∧
      (l = [] → p = c) := by
  obtain ⟨mid, q, h1, h2⟩ := (DL_append _ _ _ _ _ _ _).1 h
  obtain ⟨h3, _, h5, h6, h7⟩ := h2
  have := DL_getLast _ _ _ _ _ _ h1
  refine ⟨h7, h6, by rw [h5, this], ?_⟩
  intro hl
  subst hl
  rw [← h3]; exact h1.1

theorem heap_nodup (s : State) (bs : List Blk) (fl : List Nat) (h : Heap s bs fl) :
    fl.Nodup :=
  h.perm.nodup_iff.2 (freeOf_nodup _ _ _ h.chain)

/-- Two nodes of the free list of a well-formed heap are equal or 24 bytes
apart. -/
theorem heap_nodes_apart (s : State) (bs : List Blk) (fl : List Nat) (h : Heap s bs fl)
    (x : Nat) (hx : x ∈ fl) (y : Nat) (hy : y ∈ fl) : x = y ∨ x + 24 ≤ y ∨ y + 24 ≤ x := by
  obtain ⟨b, hb, _, hbx⟩ := (mem_freeOf _ _).1 (h.perm.mem_iff.1 hx)
  obtain ⟨d, hd, _, hdy⟩ := (mem_freeOf _ _).1 (h.perm.mem_iff.1 hy)
  have h1 := Chain_sep _ _ _ h.chain b hb d hd
  have h2 := Chain_mem _ _ _ h.chain b hb
  have h3 := Chain_mem _ _ _ h.chain d hd
  omega

theorem without_sublist (fl : List Nat) (ab : List Blk) : (without fl ab).Sublist fl :=
  List.filter_sublist fl

theorem not_mem_without (fl : List Nat) (ab : List Blk) (b : Blk) (hb : b ∈ ab) :
    b.addr ∉ without fl ab := by
  unfold without
  intro h
  have := (List.mem_filter.1 h).2
  simp only [decide_eq_true_eq] at this
  exact this (List.mem_map_of_mem _ hb)

/-- The last node of the free list stays the last when it is not taken out. -/
theorem without_getLast (fl : List Nat) (ab : List Blk) (z : Nat)
    (hz : fl.getLast? = some z) (hn : z ∉ ab.map Blk.addr) :
    (without fl ab).getLast? = some z := by
  obtain ⟨l, rfl⟩ : ∃ l, fl = l ++ [z] := by
    rcases List.eq_nil_or_concat fl with h | ⟨l, y, h⟩
    · subst h; simp at hz
    · subst h
      simp at hz
      exact ⟨l, by rw [hz]; simp⟩
  have hp : decide (z ∉ ab.map Blk.addr) = true := by simpa using hn
  unfold without
  rw [List.filter_append, List.filter_cons, if_pos hp, List.filter_nil]
  simp

/-! ## Frames of `update_param` and `create_new_block` -/

theorem update_param_frame (s : State) (c x : Nat) (h1 : x < c + 8 ∨ c + 16 ≤ x)
    (h2 : s.first_free = 0 ∨ x < s.last_free + 16 ∨ s.last_free + 24 ≤ x) :
    (update_param s c).mem x = s.mem x := by
  unfold update_param
  dsimp only
  split
  · exact memset_out _ _ _ _ _ (by simp only [ALIGNMENT]; omega)
  · rename_i hff
    rcases h2 with h | h
    · exact absurd h hff
    · show store (store s.mem (c + ALIGNMENT) s.last_free) (s.last_free + MINSIZE) c x = _
      rw [store_out _ _ _ _ (by simp only [MINSIZE]; omega),
        store_out _ _ _ _ (by simp only [ALIGNMENT]; omega)]

theorem create_new_block_snd (m : Mem) (cur needed x : Nat) :
    (create_new_block m cur needed x).2 = cur + needed + ALIGNMENT := rfl

theorem create_new_block_frame (m : Mem) (cur needed x y : Nat)
    (h : y < cur + needed + 8 ∨ (cur + needed + 16 ≤ y ∧ y < cur + needed + 24) ∨
      cur + needed + 32 ≤ y) :
    (create_new_block m cur needed x).1 y = m y := by
  unfold create_new_block
  dsimp only
  rw [memset_out _ _ _ _ _ (by simp only [MINSIZE, ALIGNMENT]; omega),
    store_out _ _ _ _ (by simp only [ALIGNMENT]; omega),
    store_out _ _ _ _ (by simp only [ALIGNMENT]; omega)]

theorem create_new_block_hdr (m : Mem) (cur needed x : Nat) (hx : 8 ≤ x) (hxW : x < WORD)
    (hx2 : x % 2 = 0) :
    load (create_new_block m cur needed x).1 (cur + needed + ALIGNMENT) = x - 8 := by
  have e : (x + WORD - ALIGNMENT) % WORD = x - 8 := by
    unfold WORD at *; unfold ALIGNMENT; omega
  unfold create_new_block
  dsimp only
  rw [load_memset_disj _ _ _ _ _ (by simp only [MINSIZE, ALIGNMENT]; omega), load_store_same,
    load_store_same, e, and_wnot_one _ (Nat.mod_lt _ (by decide))]
  unfold WORD at *
  omega

theorem create_new_block_next (m : Mem) (cur needed x : Nat) :
    load (create_new_block m cur needed x).1 (cur + needed + ALIGNMENT + MINSIZE) = 0 := by
  unfold create_new_block
  dsimp only
  exact load_memset_same _ _

theorem or_one_even (x : Nat) (h : x % 2 = 0) : x ||| 1 = x + 1 := by
  rw [or_one]; omega

/-- Writing a size and then setting the status bit leaves the header of an
allocated block of that size. -/
theorem load_store_alloc (m : Mem) (a sz : Nat) (h2 : sz % 2 = 0) (hW : sz + 1 < WORD) :
    load (store (store m a sz) a (load (store m a sz) a ||| 1)) a = sz + 1 := by
  unfold WORD at hW
  rw [load_store_same, load_store_same]
  have e : sz % WORD = sz := by unfold WORD; omega
  rw [e, or_one_even _ h2]
  unfold WORD; omega

/-! ## Detaching the block that is resized -/

theorem Heap.detach (s : State) (pre rest : List Blk) (c : Blk) (fl : List Nat)
    (h : Heap s (pre ++ c :: rest) fl) (hu : c.used = true) : Detached s pre c rest fl := by
  obtain ⟨hs0, heW, hch, hhd, hdl, hperm⟩ := h
  obtain ⟨hpre, hcr⟩ := (Hdrs_append _ _ _).1 hhd
  obtain ⟨hc, hrest⟩ := (Hdrs_cons _ _ _).1 hcr
  refine ⟨hs0, heW, hch, hpre, hrest, Or.inr ?_, hdl, ?_⟩
  · rw [hc]; simp [Blk.hdr, hu]
  · rw [freeOf_append, freeOf_cons_used c rest hu] at hperm; exact hperm

/-- The free list of a heap with a detached block is empty, or its last node
is a free block clear of the detached block. -/
theorem detached_last_free (s : State) (pre rest : List Blk) (c : Blk) (fl : List Nat)
    (h : Detached s pre c rest fl) :
    s.first_free = 0 ∨
      (s.last_free + 24 ≤ c.addr ∨ c.addr + 8 + c.size ≤ s.last_free) := by
  cases fl with
  | nil => left; exact h.links.1
  | cons a l =>
    right
    have hm := DL_last_mem _ _ _ _ _ _ h.links (by simp)
    obtain ⟨b, hb, hba, _, hbc⟩ := detached_node _ _ _ _ _ _ h.chain h.perm _ hm
    have := Chain_mem _ _ _ h.chain b hb
    omega

theorem detached_size_lt (s : State) (pre rest : List Blk) (c : Blk) (fl : List Nat)
    (h : Detached s pre c rest fl) :
    16 ≤ c.size ∧ c.size % 8 = 0 ∧ c.addr + 8 + c.size ≤ s.segment_end ∧
      s.segment_end < WORD ∧ get_size s.mem c.addr = c.size := by
  obtain ⟨_, c2, c3, c4⟩ := Chain_split _ _ _ _ _ h.chain
  have := Chain_le _ _ _ c4
  exact ⟨c2, c3, this, h.end_lt, get_size_of_hdr _ _ _ c3 h.hcur⟩

/-! ## The growth loop of `myrealloc` -/

theorem myrealloc_loop_succ (fuel : Nat) (s : State) (cur needed old np : Nat) :
    myrealloc_loop (fuel + 1) s cur needed old np
      = if (load s.mem np &&& SEVEN) = 0 ∧ np ≠ s.segment_end then
          if get_size (absorb s cur np).mem cur ≥ needed then
            some (Grow.returned
              (grow_done (absorb s cur np) cur needed (get_size (absorb s cur np).mem cur)) old)
          else
            myrealloc_loop fuel (absorb s cur np) cur needed old
              (cur + get_size (absorb s cur np).mem cur + ALIGNMENT)
        else some (Grow.exited s np) := by
  by_cases h1 : (load s.mem np &&& SEVEN) = 0 ∧ np ≠ s.segment_end
  · by_cases h2 : get_size (absorb s cur np).mem cur ≥ needed
    · by_cases h3 : get_size (absorb s cur np).mem cur - needed > MINSIZE
      · rw [if_pos h1, if_pos h2]
        simp only [myrealloc_loop, grow_done, absorb] at *
        rw [if_pos h1, if_pos h2, if_pos h3, if_pos h3]
      · rw [if_pos h1, if_pos h2]
        simp only [myrealloc_loop, grow_done, absorb] at *
        rw [if_pos h1, if_pos h2, if_neg h3, if_neg h3]
    · rw [if_pos h1, if_neg h2]
      simp only [myrealloc_loop, absorb] at *
      rw [if_pos h1, if_neg h2]
  · rw [if_neg h1]
    simp only [myrealloc_loop]
    rw [if_neg h1]

/-- After the split-or-keep step the block at `cur` is allocated and holds at
least `needed` bytes. -/
theorem grow_done_hdr (s : State) (cur needed total : Nat) (hl : load s.mem cur = total)
    (h8 : needed % 8 = 0) (ht8 : total % 8 = 0) (hle : needed ≤ total)
    (htW : cur + 8 + total < WORD)
    (hlast : s.first_free = 0 ∨ s.last_free + 24 ≤ cur ∨ cur + 8 + total ≤ s.last_free) :
    load (grow_done s cur needed total).mem cur % 2 = 1 ∧
      needed ≤ get_size (grow_done s cur needed total).mem cur := by
  unfold grow_done
  split
  · rename_i hx
    simp only [MINSIZE] at hx
    have e : load (update_param
        { s with mem := (create_new_block (store (store s.mem cur needed) cur
          (load (store s.mem cur needed) cur ||| 1)) cur needed (total - needed)).1 }
        (create_new_block (store (store s.mem cur needed) cur
          (load (store s.mem cur needed) cur ||| 1)) cur needed (total - needed)).2).mem cur
        = needed + 1 := by
      rw [← load_store_alloc s.mem cur needed (by omega) (by omega)]
      apply load_congr
      intro x hx1 hx2
      rw [update_param_frame _ _ _ (by rw [create_new_block_snd]; simp only [ALIGNMENT]; omega)
        (by
          show s.first_free = 0 ∨ x < s.last_free + 16 ∨ s.last_free + 24 ≤ x
          omega)]
      exact create_new_block_frame _ _ _ _ _ (by omega)
    dsimp only
    rw [get_size_of_hdr _ _ needed h8 (Or.inr e), e]
    omega
  · have e : load (store s.mem cur (load s.mem cur ||| 1)) cur = total + 1 := by
      rw [load_store_same, hl, or_one_even _ (by omega)]
      unfold WORD at *; omega
    dsimp only
    rw [get_size_of_hdr _ _ total ht8 (Or.inr e), e]
    omega

/-- The growth loop returns the old pointer once the free blocks that follow
make the block large enough. -/
theorem myrealloc_loop_reach (needed old : Nat) (h8 : needed % 8 = 0) :
    ∀ (ab : List Blk) (s : State) (pre : List Blk) (c : Blk) (rest' : List Blk) (fl : List Nat)
      (fuel np : Nat),
    Detached s pre c (ab ++ rest') fl → (∀ b ∈ ab, b.used = false) →
    c.size < needed → needed ≤ c.size + span ab → np = c.addr + 8 + c.size →
    ab.length ≤ fuel →
    ∃ s', myrealloc_loop fuel s c.addr needed old np = some (Grow.returned s' old) ∧
      load s'.mem c.addr % 2 = 1 ∧ needed ≤ get_size s'.mem c.addr := by
  intro ab
  induction ab with
  | nil =>
    intro s pre c rest' fl fuel np _ _ h1 h2 _ _
    rw [span_nil] at h2; omega
  | cons n ab ih =>
    intro s pre c rest' fl fuel np hD hfree hlt hge hnp hfuel
    obtain ⟨f, rfl⟩ : ∃ f, fuel = f + 1 := ⟨fuel - 1, by simp at hfuel; omega⟩
    obtain ⟨_, c2, c3, c4⟩ := Chain_split _ _ _ _ _ hD.chain
    obtain ⟨n1, n2, n3, n4⟩ := c4
    have hle := Chain_le _ _ _ n4
    have hn : n.used = false := hfree n (by simp)
    have hnh : load s.mem n.addr = n.hdr := hD.hrest n (by simp)
    have hnpn : np = n.addr := by omega
    obtain ⟨hD1, hc1, _⟩ := absorb_step s pre (ab ++ rest') c n fl hD hn
    obtain ⟨g1, g2, g3, g4⟩ := absorb_fields s c.addr n.addr
    have hcond : (load s.mem n.addr &&& SEVEN) = 0 ∧ n.addr ≠ s.segment_end := by
      rw [hnh, and_seven]
      simp only [Blk.hdr, hn]
      constructor
      · simp; omega
      · omega
    have hgs : get_size (absorb s c.addr n.addr).mem c.addr = c.size + 8 + n.size :=
      get_size_of_hdr _ _ _ (by omega) (Or.inl hc1)
    rw [hnpn, myrealloc_loop_succ, if_pos hcond, hgs]
    by_cases hdone : c.size + 8 + n.size ≥ needed
    · rw [if_pos hdone]
      refine ⟨_, rfl, ?_⟩
      have hW := hD.end_lt
      have hlast := detached_last_free _ _ _ _ _ hD1
      exact grow_done_hdr _ _ _ _ hc1 h8 (by omega) hdone (by omega) hlast
    · rw [if_neg hdone]
      rw [span_cons] at hge
      exact ih (absorb s c.addr n.addr) pre ⟨c.addr, c.size + 8 + n.size, c.used⟩ rest'
        (without fl [n]) f _ hD1 (fun b hb => hfree b (by simp [hb])) (by dsimp only; omega)
        (by dsimp only; omega) (by simp only [ALIGNMENT]; omega) (by simp at hfuel; omega)

/-- The growth loop exits with the block merged with the whole run of free
blocks that followed it when that run is too short. -/
theorem myrealloc_loop_exhaust (needed old : Nat) :
    ∀ (ab : List Blk) (s : State) (pre : List Blk) (c : Blk) (rest' : List Blk) (fl : List Nat)
      (fuel np : Nat),
    Detached s pre c (ab ++ rest') fl → (∀ b ∈ ab, b.used = false) →
    (∀ b, rest'.head? = some b → b.used = true) →
    c.size + span ab < needed → np = c.addr + 8 + c.size → ab.length < fuel →
    ∃ s', myrealloc_loop fuel s c.addr needed old np
        = some (Grow.exited s' (c.addr + 8 + (c.size + span ab))) ∧
      Detached s' pre ⟨c.addr, c.size + span ab, c.used⟩ rest' (without fl ab) ∧
      s'.segment_start = s.segment_start ∧ s'.segment_end = s.segment_end ∧
      s'.segment_size = s.segment_size ∧ s'.nused = s.nused := by
  intro ab
  induction ab with
  | nil =>
    intro s pre c rest' fl fuel np hD _ hhead hlt hnp hfuel
    obtain ⟨f, rfl⟩ : ∃ f, fuel = f + 1 := ⟨fuel - 1, by omega⟩
    refine ⟨s, ?_, ?_, rfl, rfl, rfl, rfl⟩
    · rw [myrealloc_loop_succ, if_neg, span_nil, hnp]
      · rfl
      · obtain ⟨_, c2, c3, c4⟩ := Chain_split _ _ _ _ _ hD.chain
        rw [List.nil_append] at c4
        cases rest' with
        | nil =>
          have : c.addr + 8 + c.size = s.segment_end := c4
          rw [hnp, this]; simp
        | cons n r =>
          obtain ⟨n1, n2, n3, n4⟩ := c4
          have hu : n.used = true := hhead n rfl
          have hnh : load s.mem n.addr = n.hdr := hD.hrest n (by simp)
          rw [hnp, ← n1, hnh, and_seven]
          simp only [Blk.hdr, hu]
          simp; omega
    · rw [without_nil, span_nil]; exact hD
  | cons n ab ih =>
    intro s pre c rest' fl fuel np hD hfree hhead hlt hnp hfuel
    obtain ⟨f, rfl⟩ : ∃ f, fuel = f + 1 := ⟨fuel - 1, by simp at hfuel; omega⟩
    obtain ⟨_, c2, c3, c4⟩ := Chain_split _ _ _ _ _ hD.chain
    obtain ⟨n1, n2, n3, n4⟩ := c4
    have hle := Chain_le _ _ _ n4
    have hn : n.used = false := hfree n (by simp)
    have hnh : load s.mem n.addr = n.hdr := hD.hrest n (by simp)
    have hnpn : np = n.addr := by omega
    obtain ⟨hD1, hc1, _⟩ := absorb_step s pre (ab ++ rest') c n fl hD hn
    obtain ⟨g1, g2, g3, g4⟩ := absorb_fields s c.addr n.addr
    have hcond : (load s.mem n.addr &&& SEVEN) = 0 ∧ n.addr ≠ s.segment_end := by
      rw [hnh, and_seven]
      simp only [Blk.hdr, hn]
      constructor
      · simp; omega
      · omega
    have hgs : get_size (absorb s c.addr n.addr).mem c.addr = c.size + 8 + n.size :=
      get_size_of_hdr _ _ _ (by omega) (Or.inl hc1)
    rw [span_cons] at hlt
    have hsp : c.size + 8 + n.size + span ab = c.size + span (n :: ab) := by
      rw [span_cons]; omega
    obtain ⟨s', e1, e2, e3, e4, e5, e6⟩ :=
      ih (absorb s c.addr n.addr) pre ⟨c.addr, c.size + 8 + n.size, c.used⟩ rest'
        (without fl [n]) f (c.addr + (c.size + 8 + n.size) + ALIGNMENT) hD1
        (fun b hb => hfree b (by simp [hb])) hhead (by dsimp only; omega)
        (by simp only [ALIGNMENT]; omega) (by simp at hfuel; omega)
    refine ⟨s', ?_, ?_, by rw [e3, g1], by rw [e4, g2], by rw [e5, g3], by rw [e6, g4]⟩
    · rw [hnpn, myrealloc_loop_succ, if_pos hcond, hgs, if_neg (by omega), ← hsp]
      exact e1
    · rw [without_cons] at e2
      rw [← hsp]; exact e2

/-- A node of the free list stands clear of every allocated block. -/
theorem detached_node_used (pre rest : List Blk) (c : Blk) (fl : List Nat) (a e : Nat)
    (hch : Chain a (pre ++ c :: rest) e) (hp : fl.Perm (freeOf pre ++ freeOf rest))
    (x : Nat) (hx : x ∈ fl) (d : Blk) (hd : d ∈ pre ++ c :: rest) (hu : d.used = true) :
    x + 24 ≤ d.addr ∨ d.addr + 8 + d.size ≤ x := by
  obtain ⟨b, hb, hbx, hbf, _⟩ := detached_node _ _ _ _ _ _ hch hp x hx
  have h1 := Chain_sep _ _ _ hch b hb d hd
  have h2 := Chain_mem _ _ _ hch b hb
  rcases h1 with h | h
  · have := Chain_addr_inj _ _ _ hch b hb d hd h
    rw [this, hu] at hbf
    exact absurd hbf (by simp)
  · omega

/-! ## `myrealloc` in place -/

/-- Shrinking: the block keeps its address, stays allocated and records at least
the rounded size. -/
theorem myrealloc_shrink (s : State) (pre rest : List Blk) (c : Blk) (fl : List Nat)
    (fuel new_size : Nat) (hH : Heap s (pre ++ c :: rest) fl) (hu : c.used = true)
    (hn : 0 < new_size) (hfuel : rest.length < fuel) (hlt : total_round new_size < c.size) :
    ∃ s', myrealloc fuel s (c.addr + ALIGNMENT) new_size = some (s', c.addr + ALIGNMENT) ∧
      load s'.mem c.addr % 2 = 1 ∧ total_round new_size ≤ get_size s'.mem c.addr := by
  have hD := Heap.detach s pre rest c fl hH hu
  obtain ⟨c2, c3, c5, c6, hgs⟩ := detached_size_lt _ _ _ _ _ hD
  obtain ⟨c1, _, _, c4⟩ := Chain_split _ _ _ _ _ hD.chain
  have hc : load s.mem c.addr = c.size + 1 := by
    obtain ⟨_, hcr⟩ := (Hdrs_append _ _ _).1 hH.hdrs
    rw [((Hdrs_cons _ _ _).1 hcr).1]; simp [Blk.hdr, hu]
  have t8 := total_round_mod new_size
  have t16 := total_round_ge new_size
  have h0 : ¬ (c.addr + ALIGNMENT = 0 ∨ new_size = 0) := by simp only [ALIGNMENT]; omega
  unfold myrealloc
  rw [if_neg h0]
  simp only [Nat.add_sub_cancel]
  generalize total_round new_size = needed at *
  rw [hgs, if_neg (by omega), if_pos (by omega)]
  by_cases hx : c.size - needed > MINSIZE
  · rw [if_pos hx]
    simp only [MINSIZE] at hx
    -- the heap after the split, the remainder detached
    let m2 := store (store s.mem c.addr needed) c.addr (load (store s.mem c.addr needed) c.addr ||| 1)
    let r := create_new_block m2 c.addr needed (c.size - needed)
    have hm2 : load m2 c.addr = needed + 1 := load_store_alloc _ _ _ (by omega) (by omega)
    have hfr : ∀ y, (y < c.addr ∨ c.addr + 8 + c.size ≤ y) → r.1 y = s.mem y := by
      intro y hy
      show (create_new_block m2 c.addr needed (c.size - needed)).1 y = _
      rw [create_new_block_frame _ _ _ _ _ (by omega)]
      show store (store s.mem c.addr needed) c.addr _ y = _
      rw [store_out _ _ _ _ (by omega), store_out _ _ _ _ (by omega)]
    have hr1 : load r.1 c.addr = needed + 1 := by
      rw [← hm2]
      exact load_congr _ _ _ fun y _ _ => create_new_block_frame _ _ _ _ _ (by omega)
    have hr2 : load r.1 (c.addr + needed + ALIGNMENT) = c.size - needed - 8 :=
      create_new_block_hdr _ _ _ _ (by omega) (by omega) (by omega)
    have hchain : Chain s.segment_start
        ((pre ++ [⟨c.addr, needed, true⟩]) ++
          (⟨c.addr + needed + ALIGNMENT, c.size - needed - 8, false⟩ : Blk) :: rest)
        s.segment_end := by
      rw [List.append_assoc]
      apply Chain_join pre _ ⟨c.addr, needed, true⟩ _ _ c1 t16 t8
      refine ⟨by simp only [ALIGNMENT]; omega, by dsimp only; omega, by dsimp only; omega, ?_⟩
      have e : c.addr + 8 + needed + 8 + (c.size - needed - 8) = c.addr + 8 + c.size := by omega
      show Chain (c.addr + 8 + needed + 8 + (c.size - needed - 8)) rest s.segment_end
      rw [e]; exact c4
    have hD0 : Detached ({ s with mem := r.1 } : State) (pre ++ [⟨c.addr, needed, true⟩])
        ⟨c.addr + needed + ALIGNMENT, c.size - needed - 8, false⟩ rest fl := by
      refine ⟨hD.start_ne, hD.end_lt, hchain, ?_, ?_, Or.inl hr2, ?_, ?_⟩
      · refine (Hdrs_append _ _ _).2 ⟨?_, ?_⟩
        · refine Hdrs_frame _ _ _ hD.hpre fun b hb => load_congr _ _ _ fun y _ _ => hfr y ?_
          have := Chain_mem _ _ _ c1 b hb
          omega
        · intro b hb
          rw [List.mem_singleton.1 hb]
          show load r.1 c.addr = _
          rw [hr1]; rfl
      · refine Hdrs_frame _ _ _ hD.hrest fun b hb => load_congr _ _ _ fun y _ _ => hfr y ?_
        have := Chain_mem _ _ _ c4 b hb
        omega
      · refine DL_congr _ _ _ _ _ _ _ ?_ hD.links
        intro a ha
        obtain ⟨b, hb, hba, _, hbc⟩ := detached_node _ _ _ _ _ _ hD.chain hD.perm a ha
        have := Chain_mem _ _ _ hD.chain b hb
        constructor <;>
          exact load_congr _ _ _ fun y _ _ => hfr y (by simp only [ALIGNMENT, MINSIZE] at *; omega)
      · rw [freeOf_append]
        have : freeOf [(⟨c.addr, needed, true⟩ : Blk)] = [] := rfl
        rw [this, List.append_nil]
        exact hD.perm
    obtain ⟨s', ab, rest', e1, e2, e3, e4, e5, e6, e7, _⟩ :=
      sum_free_spec rest _ _ _ fl fuel hD0 hr2 hfuel
    have enp : c.addr + ALIGNMENT + c.size
        = c.addr + needed + ALIGNMENT + (c.size - needed - 8) + ALIGNMENT := by
      simp only [ALIGNMENT]; omega
    dsimp only at e4
    rw [enp, create_new_block_snd]
    refine ⟨update_param s' (c.addr + needed + ALIGNMENT),
      congrArg (Option.map fun s1 => (update_param s1 (c.addr + needed + ALIGNMENT),
        c.addr + ALIGNMENT)) e4, ?_⟩
    have hlast : s'.first_free = 0 ∨ s'.last_free + 24 ≤ c.addr ∨ c.addr + 24 ≤ s'.last_free := by
      cases hw : without fl ab with
      | nil =>
        left
        have := e5.links
        rw [hw] at this
        exact this.1
      | cons a l =>
        right
        have hm := DL_last_mem _ _ _ _ _ _ e5.links (by rw [hw]; simp)
        have := detached_node_used _ _ _ _ _ _ e5.chain e5.perm _ hm ⟨c.addr, needed, true⟩
          (by simp) rfl
        dsimp only at this
        omega
    have hfin : load (update_param s' (c.addr + needed + ALIGNMENT)).mem c.addr = needed + 1 := by
      rw [← hr1]
      apply load_congr
      intro y hy1 hy2
      rw [update_param_frame _ _ _ (by simp only [ALIGNMENT]; omega)
        (by omega)]
      refine e7 y (by dsimp only; simp only [ALIGNMENT]; omega) ?_
      intro a ha
      have := detached_node_used _ _ _ _ _ _ hD.chain hD.perm a ha c (by simp) hu
      omega
    rw [get_size_of_hdr _ _ needed t8 (Or.inr hfin), hfin]
    omega
  · rw [if_neg hx]
    refine ⟨s, rfl, ?_⟩
    rw [hgs, hc]
    omega

/-- Growing over the free blocks that follow: the block keeps its address, stays
allocated and records at least the rounded size. -/
theorem myrealloc_grow (s : State) (pre ab rest' : List Blk) (c : Blk) (fl : List Nat)
    (fuel new_size : Nat) (hH : Heap s (pre ++ c :: (ab ++ rest')) fl) (hu : c.used = true)
    (hn : 0 < new_size) (hfuel : ab.length ≤ fuel) (hfree : ∀ b ∈ ab, b.used = false)
    (hlt : c.size < total_round new_size) (hge : total_round new_size ≤ c.size + span ab) :
    ∃ s', myrealloc fuel s (c.addr + ALIGNMENT) new_size = some (s', c.addr + ALIGNMENT) ∧
      load s'.mem c.addr % 2 = 1 ∧ total_round new_size ≤ get_size s'.mem c.addr := by
  have hD := Heap.detach s pre (ab ++ rest') c fl hH hu
  obtain ⟨c2, c3, c5, c6, hgs⟩ := detached_size_lt _ _ _ _ _ hD
  obtain ⟨s', e1, e2⟩ := myrealloc_loop_reach (total_round new_size) (c.addr + ALIGNMENT)
    (total_round_mod new_size) ab s pre c rest' fl fuel (c.addr + ALIGNMENT + c.size) hD hfree
    hlt hge (by simp only [ALIGNMENT]) hfuel
  have h0 : ¬ (c.addr + ALIGNMENT = 0 ∨ new_size = 0) := by simp only [ALIGNMENT]; omega
  refine ⟨s', ?_, e2⟩
  unfold myrealloc
  rw [if_neg h0]
  simp only [Nat.add_sub_cancel]
  rw [hgs, if_neg (by omega), if_neg (by omega), e1]
  rfl

/-- Extending the last block of the committed region, the free blocks that
followed it merged: the block keeps its address, stays allocated and records the
rounded size. -/
theorem myrealloc_extend (s : State) (pre rest : List Blk) (c : Blk) (fl : List Nat)
    (fuel new_size : Nat) (hH : Heap s (pre ++ c :: rest) fl) (hu : c.used = true)
    (hn : 0 < new_size) (hfuel : rest.length < fuel) (hfree : ∀ b ∈ rest, b.used = false)
    (hlt : c.size + span rest < total_round new_size)
    (hfit : s.nused + (total_round new_size - (c.size + span rest)) ≤ s.segment_size) :
    ∃ s', myrealloc fuel s (c.addr + ALIGNMENT) new_size = some (s', c.addr + ALIGNMENT) ∧
      load s'.mem c.addr % 2 = 1 ∧ total_round new_size ≤ get_size s'.mem c.addr := by
  have hD := Heap.detach s pre rest c fl hH hu
  obtain ⟨c2, c3, c5, c6, hgs⟩ := detached_size_lt _ _ _ _ _ hD
  have hD' : Detached s pre c (rest ++ []) fl := by rw [List.append_nil]; exact hD
  obtain ⟨s', e1, e2, e3, e4, e5, e6⟩ := myrealloc_loop_exhaust (total_round new_size)
    (c.addr + ALIGNMENT) rest s pre c [] fl fuel (c.addr + ALIGNMENT + c.size) hD' hfree
    (by simp) hlt (by simp only [ALIGNMENT]) hfuel
  obtain ⟨d2, d3, d5, d6, hgs'⟩ := detached_size_lt _ _ _ _ _ e2
  obtain ⟨_, _, _, d4⟩ := Chain_split _ _ _ _ _ e2.chain
  have hend : c.addr + 8 + (c.size + span rest) = s'.segment_end := d4
  have t8 := total_round_mod new_size
  have tW := total_round_lt new_size
  have h0 : ¬ (c.addr + ALIGNMENT = 0 ∨ new_size = 0) := by simp only [ALIGNMENT]; omega
  have htail : ∃ s'', myrealloc_tail fuel s' c.addr (total_round new_size) (c.addr + ALIGNMENT)
      new_size (c.addr + 8 + (c.size + span rest)) = some (s'', c.addr + ALIGNMENT) ∧
      load s''.mem c.addr % 2 = 1 ∧ total_round new_size ≤ get_size s''.mem c.addr := by
    unfold myrealloc_tail
    rw [if_pos hend]
    unfold create_block_past_end
    dsimp only at hgs' ⊢
    rw [hgs', e5, e6]
    generalize total_round new_size = needed at *
    have hext : (needed + WORD - (c.size + span rest)) % WORD
        = needed - (c.size + span rest) := by
      unfold WORD at *; omega
    have hle : (s.nused + (needed + WORD - (c.size + span rest)) % WORD) % WORD
        ≤ s.segment_size := by
      rw [hext]
      exact le_trans (Nat.mod_le _ _) hfit
    rw [if_neg (by omega)]
    refine ⟨_, rfl, ?_⟩
    have hfin : load (store (store s'.mem c.addr needed) c.addr
        (load (store s'.mem c.addr needed) c.addr ||| 1)) c.addr = needed + 1 :=
      load_store_alloc _ _ _ (by omega) (by unfold WORD at *; omega)
    dsimp only
    rw [get_size_of_hdr _ _ needed t8 (Or.inr hfin), hfin]
    omega
  obtain ⟨s'', t1, t2⟩ := htail
  refine ⟨s'', ?_, t2⟩
  unfold myrealloc
  rw [if_neg h0]
  simp only [Nat.add_sub_cancel]
  rw [hgs, if_neg (by omega), if_neg (by omega), e1]
  exact t1

/-! ## The bytes read when a block is moved -/

/-- A call of `mymalloc` that returns a non-null pointer has passed the capacity
test. -/
theorem mymalloc_nonnull_guard (fuel : Nat) (s s1 : State) (n q : Nat)
    (h : mymalloc fuel s n = some (s1, q)) (hq : q ≠ 0) :
    n ≠ 0 ∧ (total_round n + s.nused) % WORD ≤ s.segment_size := by
  unfold mymalloc at h
  dsimp only at h
  by_cases hg : n = 0 ∨ (total_round n + s.nused) % WORD > s.segment_size
  · rw [if_pos hg] at h
    have : q = 0 := by
      have := congrArg (fun r => r.map Prod.snd) h
      simpa using this.symm
    exact absurd this hq
  · exact ⟨fun h0 => hg (Or.inl h0), by omega⟩

/-- On a well-formed heap whose committed region is the `nused` bytes from
`segment_start`, when the block `c` must grow to hold `n < 2 ^ 64` bytes and the capacity
test of `mymalloc(n)` passes without the sum `needed + nused` wrapping around,
`n` exceeds the payload size of `c` and the `n` bytes from the payload of `c` lie
in the segment. -/
theorem relocation_read_within (s : State) (pre rest : List Blk) (c : Blk) (fl : List Nat)
    (n : Nat) (hH : Heap s (pre ++ c :: rest) fl) (hn : n < WORD)
    (hcommit : s.segment_end = s.segment_start + s.nused)
    (hgrow : c.size < total_round n)
    (hguard : (total_round n + s.nused) % WORD ≤ s.segment_size)
    (hnowrap : total_round n + s.nused < WORD) :
    c.size < n ∧ in_segment s (c.addr + ALIGNMENT) n := by
  have hm := Chain_mem _ _ _ hH.chain c (by simp)
  have he := total_round_eq n
  have hmod : (total_round n + s.nused) % WORD = total_round n + s.nused :=
    Nat.mod_eq_of_lt hnowrap
  rw [hmod] at hguard
  unfold in_segment
  simp only [ALIGNMENT]
  unfold WORD at *
  split at he <;> omega

/-! ## Walks that leave the committed region -/

theorem load_zero (m : Mem) (a : Nat) (h : ∀ x, a ≤ x → x < a + 8 → m x = 0) :
    load m a = 0 := by
  unfold load
  rw [h a (by omega) (by omega), h (a + 1) (by omega) (by omega),
    h (a + 2) (by omega) (by omega), h (a + 3) (by omega) (by omega),
    h (a + 4) (by omega) (by omega), h (a + 5) (by omega) (by omega),
    h (a + 6) (by omega) (by omega), h (a + 7) (by omega) (by omega)]
  norm_num

/-- The merge loop of `sum_free`, started beyond `segment_end` on memory that is
zero from `cur + 8` on, never returns: every word it reads is zero, which it
takes for the header of a free block of size 0. -/
theorem sum_free_zero_tail (cur : Nat) : ∀ (fuel : Nat) (s : State) (np : Nat),
    (∀ x, cur + 8 ≤ x → s.mem x = 0) → s.segment_end ≤ cur → cur + 8 ≤ np →
    sum_free fuel s np cur = none := by
  intro fuel
  induction fuel with
  | zero => intro s np _ _ _; rfl
  | succ f ih =>
    intro s np hz he hnp
    have h0 : load s.mem np = 0 := load_zero _ _ fun x hx _ => hz x (by omega)
    have h1 : load s.mem (np + ALIGNMENT) = 0 :=
      load_zero _ _ fun x hx _ => hz x (by simp only [ALIGNMENT] at hx; omega)
    have h2 : load s.mem (np + MINSIZE) = 0 :=
      load_zero _ _ fun x hx _ => hz x (by simp only [MINSIZE] at hx; omega)
    have hcond : (load s.mem np &&& SEVEN) = 0 ∧ np ≠ s.segment_end := by
      rw [h0]; exact ⟨by decide, by omega⟩
    obtain ⟨u1, _, _⟩ := update_free_only s np h1 h2
    obtain ⟨_, g2, _, _⟩ := absorb_fields s cur np
    rw [sum_free_succ, if_pos hcond]
    refine ih _ _ ?_ (by rw [g2]; exact he) (by simp only [ALIGNMENT]; omega)
    intro x hx
    show coalesce (update_free s (np + MINSIZE) (np + ALIGNMENT)).mem cur np x = 0
    unfold coalesce
    rw [store_out _ _ _ _ (by omega), u1]
    exact hz x hx

theorem failed_extension_state_mem (x : Nat) (hx : 4104 ≤ x) :
    failed_extension_state.mem x = 0 := by
  have e : failed_extension_state.mem
      = store (store (store (store (fun _ => 0) 4096 16) 4096 17) 4096 104) 4096 105 := rfl
  rw [e, store_out _ _ _ _ (by omega), store_out _ _ _ _ (by omega),
    store_out _ _ _ _ (by omega), store_out _ _ _ _ (by omega)]

/-- Shrinking the block left by the failed resize: the loop of `sum_free` starts
beyond `segment_end` and the call never returns. -/
theorem failed_extension_shrink (fuel : Nat) :
    myrealloc fuel failed_extension_state (4096 + ALIGNMENT) 16 = none := by
  have hgs : get_size failed_extension_state.mem 4096 = 104 := rfl
  have htr : total_round 16 = 16 := rfl
  have h0 : ¬ (4096 + ALIGNMENT = 0 ∨ 16 = 0) := by simp [ALIGNMENT]
  unfold myrealloc
  rw [if_neg h0]
  simp only [Nat.add_sub_cancel]
  rw [hgs, htr, if_neg (by decide), if_pos (by decide), if_pos (by decide),
    create_new_block_snd]
  rw [sum_free_zero_tail (4096 + 16 + ALIGNMENT) fuel _ _ ?_ ?_ ?_]
  · rfl
  · intro x hx
    simp only [ALIGNMENT] at hx
    show (create_new_block _ 4096 16 (104 - 16)).1 x = 0
    unfold create_new_block
    dsimp only
    by_cases hm : 4096 + 16 + ALIGNMENT + MINSIZE ≤ x ∧
        x < 4096 + 16 + ALIGNMENT + MINSIZE + ALIGNMENT
    · rw [memset_in _ _ _ _ _ hm.1 hm.2]
    · simp only [ALIGNMENT, MINSIZE] at hm
      rw [memset_out _ _ _ _ _ (by simp only [ALIGNMENT, MINSIZE]; omega),
        store_out _ _ _ _ (by simp only [ALIGNMENT]; omega),
        store_out _ _ _ _ (by simp only [ALIGNMENT]; omega),
        store_out _ _ _ _ (by omega), store_out _ _ _ _ (by omega)]
      exact failed_extension_state_mem x (by omega)
  · show failed_extension_state.segment_end ≤ 4096 + 16 + ALIGNMENT
    have : failed_extension_state.segment_end = 4120 := rfl
    rw [this]; simp [ALIGNMENT]
  · simp only [ALIGNMENT]; omega

/-! ## The claims -/

/-- C1, failing input.  After `myinit(4096, 1024)` the calls `a = mymalloc(16)`,
`b = mymalloc(2^64 - 24)` and `c = mymalloc(16)` all return a non-null pointer:
in the second call `needed + nused` wraps to `0` and passes the capacity test,
and `nused` wraps to `8`.  The blocks `a` and `c` are both live, both record a
payload of 16 bytes, and `c = a + 8`: their payloads overlap. -/
theorem overflow_overlap :
    overflow_trace.map (fun r =>
      (r.2.1, r.2.2.1, r.2.2.2, get_size r.1.mem (r.2.1 - ALIGNMENT),
        get_size r.1.mem (r.2.2.2 - ALIGNMENT), r.1.nused))
      = some (4104, 4128, 4112, 16, 16, 32) := by
  rfl

/-- C2, failing input.  `mymalloc(2^64 - 1)` on a fresh heap of 1024 bytes returns
the non-null pointer 4104, and the payload size recorded for it is 16: the
rounding `(s + 7) & ~7` wraps to `0` and is clamped to `MINSIZE`. -/
theorem huge_request_small_block :
    huge_request_trace.map (fun r => (r.2, get_size r.1.mem (r.2 - ALIGNMENT), total_round (2 ^ 64 - 1)))
      = some (4104, 16, 16) := by
  rfl

/-- C3, counterexample.  In a segment of 48 bytes filled by two blocks of which
the first was released, the free list holds the block at 4096 with payload
`16 = total_round 16`, and `mymalloc(16)` returns null: `needed + nused = 64`
exceeds the capacity, and the test comes before the search of the free list. -/
theorem early_exit_ignores_free_block :
    early_exit_trace.map (fun r =>
      (r.1.first_free, get_size r.1.mem r.1.first_free, total_round 16, r.1.nused,
        r.1.segment_size, r.2.2))
      = some (4096, 16, 16, 48, 48, 0) := by
  rfl

/-- C3, amended.  On a state whose free list ends after the nodes `l`:
`mymalloc` returns null, with the state unchanged, when the size is zero or
`total_round size + nused` (modulo `2 ^ 64`) exceeds the capacity, whatever the
free list holds; and it returns a non-null pointer when the size is positive,
`total_round size + nused` is within the capacity, and either a node of the
free list has a payload of at least `total_round size` or a new block with its
header fits between `nused` and the capacity. -/
theorem mymalloc_null_cases (s : State) (size : Nat) (l : List Nat) (fuel : Nat)
    (hchain : FreeChain s.mem s.first_free l) (hfuel : l.length < fuel) :
    ((size = 0 ∨ (total_round size + s.nused) % WORD > s.segment_size) →
      mymalloc fuel s size = some (s, 0)) ∧
    (0 < size → total_round size + s.nused ≤ s.segment_size →
      ((∃ a ∈ l, total_round size ≤ get_size s.mem a) ∨
        ALIGNMENT + total_round size + s.nused ≤ s.segment_size) →
      ∃ s' p, mymalloc fuel s size = some (s', p) ∧ p ≠ 0) := by
  constructor
  · intro h
    simp [mymalloc, h]
  · intro h1 h2 _
    exact mymalloc_returns s size l fuel hchain hfuel h1 h2

/-- C3, witness: the state of the reuse scenario after the release, whose free
list is the single block at 4096, and a request of 90 bytes. -/
theorem mymalloc_null_cases_witness :
    ((90 = 0 ∨ (total_round 90 + reuse_state.nused) % WORD > reuse_state.segment_size) →
      mymalloc 2 reuse_state 90 = some (reuse_state, 0)) ∧
    (0 < 90 → total_round 90 + reuse_state.nused ≤ reuse_state.segment_size →
      ((∃ a ∈ [4096], total_round 90 ≤ get_size reuse_state.mem a) ∨
        ALIGNMENT + total_round 90 + reuse_state.nused ≤ reuse_state.segment_size) →
      ∃ s' p, mymalloc 2 reuse_state 90 = some (s', p) ∧ p ≠ 0) :=
  mymalloc_null_cases reuse_state 90 [4096] 2 (by decide) (by decide)

/-- C4.  First fit before bump allocation, on every state: when the size is
positive, `total_round size + nused` is within the capacity, and the walk of the
free list from `first_free` passes the blocks `l`, all too small, and then
reaches a block `c` whose payload is at least `total_round size`, then
`mymalloc` returns the payload address of `c` and leaves `nused` and
`segment_end` as they were. -/
theorem mymalloc_first_fit (s : State) (size : Nat) (l : List Nat) (c fuel : Nat)
    (hsize : 0 < size) (hcap : total_round size + s.nused ≤ s.segment_size)
    (hwalk : WalkTo s.mem s.first_free l c)
    (hsmall : ∀ a ∈ l, get_size s.mem a < total_round size)
    (hfit : total_round size ≤ get_size s.mem c) (hfuel : l.length < fuel) :
    ∃ s', mymalloc fuel s size = some (s', c + ALIGNMENT) ∧ s'.nused = s.nused ∧
      s'.segment_end = s.segment_end := by
  have h1 : ¬ (size = 0 ∨ (total_round size + s.nused) % WORD > s.segment_size) := by
    have := Nat.mod_le (total_round size + s.nused) WORD
    omega
  refine ⟨(mymalloc_take s c (total_round size) (get_size s.mem c)).1, ?_,
    mymalloc_take_nused _ _ _ _, mymalloc_take_segment_end _ _ _ _⟩
  unfold mymalloc
  simp only [h1, if_false]
  rw [mymalloc_loop_walk s _ l _ c fuel hwalk hsmall hfit hfuel]
  rfl

/-- C4, witness: the scenario `myinit(4096, 1024); a = mymalloc(100);
b = mymalloc(200); myfree(a); c = mymalloc(90)`, where `a = 4104`: the last call
returns `4096 + 8`, the address of `a`. -/
theorem mymalloc_first_fit_witness :
    ∃ s', mymalloc 1 reuse_state 90 = some (s', 4096 + ALIGNMENT) ∧
      s'.nused = reuse_state.nused ∧ s'.segment_end = reuse_state.segment_end :=
  mymalloc_first_fit reuse_state 90 [] 4096 1 (by decide) (by decide) (by decide)
    (by decide) (by decide) (by decide)

/-- C5, counterexample.  After `myinit(4096, 1024); a = mymalloc(50);
b = mymalloc(50); myfree(a); myfree(b)` the header of `a` (at 4096) and the header
of `b` (at 4160) both hold the word 56, a free block of 56 bytes; the block of
`a` ends where the block of `b` starts; the free list is the block of `a`
followed by the block of `b`; the committed region ends at 4224. -/
theorem two_adjacent_free_blocks :
    two_free_trace.map (fun r =>
      (r.2.1, r.2.2, load r.1.mem (r.2.1 - ALIGNMENT), load r.1.mem (r.2.2 - ALIGNMENT),
        r.1.segment_end, r.1.first_free, load r.1.mem (r.1.first_free + MINSIZE),
        r.1.last_free, load r.1.mem (r.1.last_free + MINSIZE)))
      = some (4104, 4168, 56, 56, 4224, 4096, 4160, 4160, 0) := by
  rfl

/-- C5, amended.  Coalescing is to the right only.  On a well-formed heap whose
blocks are `pre`, the allocated block `c`, then `rest`, the call
`myfree(c.addr + 8)` returns and leaves a well-formed heap in which `pre` is as
it was, `c` is free and has absorbed the longest run `ab` of free blocks that
followed it (its header holds `c.size + span ab`), and the block `rest'` starts
with, if any, is allocated: no free block follows the released block.  The
blocks of `pre` are not touched, so a free block that ends where `c` starts stays
a free neighbour of the released block. -/
theorem myfree_merges_right (s : State) (pre rest : List Blk) (c : Blk) (fl : List Nat)
    (fuel : Nat) (hH : Heap s (pre ++ c :: rest) fl) (hu : c.used = true)
    (hfuel : rest.length < fuel) :
    ∃ s' ab rest', rest = ab ++ rest' ∧ (∀ b ∈ ab, b.used = false) ∧
      (∀ b, rest'.head? = some b → b.used = true) ∧
      myfree fuel s (c.addr + ALIGNMENT) = some s' ∧
      Heap s' (pre ++ ⟨c.addr, c.size + span ab, false⟩ :: rest') (without fl ab ++ [c.addr]) ∧
      load s'.mem c.addr = c.size + span ab ∧
      (c.addr + 8 + (c.size + span ab) = s'.segment_end ∨
        load s'.mem (c.addr + 8 + (c.size + span ab)) % 2 = 1) := by
  obtain ⟨s', ab, rest', e1, e2, e3, e4, e5, _⟩ := myfree_spec s pre rest c fl fuel hH hu hfuel
  refine ⟨s', ab, rest', e1, e2, e3, e4, e5, ?_, ?_⟩
  · have := e5.hdrs ⟨c.addr, c.size + span ab, false⟩ (by simp)
    simpa [Blk.hdr] using this
  · obtain ⟨_, _, _, k4⟩ := Chain_split _ _ _ _ _ e5.chain
    cases rest' with
    | nil => left; exact k4
    | cons d rest'' =>
      right
      have hd : d.used = true := e3 d rfl
      have h1 : d.addr = c.addr + 8 + (c.size + span ab) := k4.1
      have h2 := e5.hdrs d (by simp)
      rw [← h1, h2]
      have := k4.2.2.1
      simp only [Blk.hdr, hd, if_true]
      omega

/-- C5, witness: in `merge_state` the blocks are a free block at 4096, the
allocated block at 4120, a free block at 4144 and an allocated block at 4168;
releasing the block at 4120 merges the block at 4144 into it and leaves the
block at 4096 as it is. -/
theorem myfree_merges_right_witness :
    ∃ s' ab rest', [(⟨4144, 16, false⟩ : Blk), ⟨4168, 16, true⟩] = ab ++ rest' ∧
      (∀ b ∈ ab, b.used = false) ∧
      (∀ b, rest'.head? = some b → b.used = true) ∧
      myfree 3 merge_state (4120 + ALIGNMENT) = some s' ∧
      Heap s' ([⟨4096, 16, false⟩] ++ ⟨4120, 16 + span ab, false⟩ :: rest')
        (without [4096, 4144] ab ++ [4120]) ∧
      load s'.mem 4120 = 16 + span ab ∧
      (4120 + 8 + (16 + span ab) = s'.segment_end ∨
        load s'.mem (4120 + 8 + (16 + span ab)) % 2 = 1) :=
  myfree_merges_right merge_state [⟨4096, 16, false⟩] [⟨4144, 16, false⟩, ⟨4168, 16, true⟩]
    ⟨4120, 16, true⟩ [4096, 4144] 3
    ⟨by decide, by decide, by decide, by decide, by decide, by decide⟩ rfl (by decide)

/-- C6.  The exhaustion boundary.  For every non-null base and every capacity
`C` with `24 ≤ C ≤ 2 ^ 64 - 24`, a bound that holds of every region lying in the
64-bit address space from the address 24 on, `myinit` succeeds, `mymalloc(C - 8)`
then returns a non-null pointer, and the `mymalloc(1)` that follows returns null
and changes nothing. -/
theorem exhaustion_boundary (s : State) (heap C fuel : Nat) (hheap : heap ≠ 0) (hlo : 24 ≤ C)
    (hhi : C + 24 ≤ WORD) (hfuel : 0 < fuel) :
    (myinit s heap C).2 = true ∧
    ∃ s1 p, mymalloc fuel (myinit s heap C).1 (C - 8) = some (s1, p) ∧ p ≠ 0 ∧
      mymalloc fuel s1 1 = some (s1, 0) := by
  have hi : ¬ (heap = 0 ∨ C < MINHEAP) := by unfold MINHEAP; omega
  have e0 : myinit s heap C = (⟨s.mem, heap, heap, 0, 0, C, 0⟩, true) := by
    simp [myinit, hi]
  rw [e0]
  exact ⟨rfl, exhaust_fresh ⟨s.mem, heap, heap, 0, 0, C, 0⟩ fuel rfl rfl hlo hhi hfuel⟩

/-- C6, witness: a heap of 1024 bytes at 4096. -/
theorem exhaustion_boundary_witness :
    (myinit heap0 4096 1024).2 = true ∧
    ∃ s1 p, mymalloc 1 (myinit heap0 4096 1024).1 (1024 - 8) = some (s1, p) ∧ p ≠ 0 ∧
      mymalloc 1 s1 1 = some (s1, 0) :=
  exhaustion_boundary heap0 4096 1024 1 (by decide) (by decide) (by decide) (by decide)

/-- C7, failing input.  After `myinit(4096, 24)` the call `mymalloc(24)` passes
the capacity test `24 + 0 > 24`, which leaves the header out, returns 4104 and
sets `nused` to 32, above the capacity 24; `validate_heap` then returns false. -/
theorem header_overrun :
    header_overrun_trace.map (fun r =>
      (r.2, r.1.nused, r.1.segment_size, validate_heap 2 r.1))
      = some (4104, 32, 24, some false) := by
  rfl

/-- C8, failing input.  After `myinit(4096, 64); a = mymalloc(16)` the call
`myrealloc(a, 100)` returns null, and in the state it leaves the block at
`segment_start` records a payload of 104 bytes, so that the walk from
`segment_start` steps from 4096 to 4208, past `segment_end = 4120`. -/
theorem walk_steps_past_end :
    failed_extension_trace.map (fun r =>
      (r.2.2.2, r.2.1.segment_start, get_size r.2.1.mem r.2.1.segment_start,
        r.2.1.segment_start + get_size r.2.1.mem r.2.1.segment_start + ALIGNMENT,
        r.2.1.segment_end))
      = some (0, 4096, 104, 4208, 4120) := by
  rfl

/-- C9, failing input.  After `myinit(4096, 1024); a = mymalloc(100)` the block
of `a` records a payload of 104 bytes, and the caller stores 12345 in its third
word.  `myrealloc(a, 2^64 - 1)` returns `a` itself, a non-null pointer: the
rounding of the new size wraps, `needed` is 16, and the call takes the shrinking
path.  After it the block of `a` records 16 bytes and the third word of `a`
holds 80, the header of the free block split off, instead of 12345. -/
theorem resize_overwrites_payload :
    truncating_resize_trace.map (fun r =>
      (r.2.1, r.2.2.1, r.2.2.2.1, r.2.2.2.2, load r.1.mem (r.2.2.1 + 16),
        get_size r.1.mem (r.2.2.1 - ALIGNMENT)))
      = some (4104, 4104, 104, 12345, 80, 16) := by
  rfl

/-- C10, failing input.  After `myinit(4096, 64); a = mymalloc(16)` the call
`myrealloc(a, 100)` returns null: the block ends at `segment_end` and
`24 + (104 - 16) = 112` exceeds the capacity 64.  The header of the block was 17
before the call and is 105 after it, and `nused` was 24 and is 112;
`segment_end` keeps its value 4120. -/
theorem failed_extension_mutates :
    failed_extension_trace.map (fun r =>
      (r.2.2.1, r.2.2.2, load r.1.mem 4096, r.1.nused, r.1.segment_end,
        load r.2.1.mem 4096, r.2.1.nused, r.2.1.segment_end, r.1.segment_size))
      = some (4104, 0, 17, 24, 4120, 105, 112, 4120, 64) := by
  rfl

/-- C11, failing input.  After `myinit(4096, 96); a = mymalloc(16);
b = mymalloc(16)` the block of `a` is followed by an allocated block, and
`nused` is 48, so `mymalloc(200)` cannot be satisfied.  `myrealloc(a, 200)`
returns null, but `remalloc` has gone on with the null pointer: before the call
the header of `a` is 17 and its two words hold 11111 and 22222 with an empty
free list; after it the header is 16, the status bit cleared, both words are 0,
and the block is the head and the tail of the free list. -/
theorem failed_relocation_releases :
    failed_relocation_trace.map (fun r =>
      (r.2.2.1, r.2.2.2, load r.1.mem 4096, load r.1.mem 4104, load r.1.mem 4112,
        r.1.first_free, load r.2.1.mem 4096, load r.2.1.mem 4104, load r.2.1.mem 4112,
        r.2.1.first_free, r.2.1.last_free))
      = some (4104, 0, 17, 11111, 22222, 0, 16, 0, 0, 4096, 4096) := by
  rfl

/-- C12.  Resize without change, on every state: for a non-null pointer `p` and
a size `n > 0` whose rounding `total_round n` is the payload size recorded in the
header at `p - 8`, `myrealloc(p, n)` returns `p` and the state it was given. -/
theorem myrealloc_same_size (s : State) (p n fuel : Nat) (hp : p ≠ 0) (hn : 0 < n)
    (hsame : total_round n = get_size s.mem (p - ALIGNMENT)) :
    myrealloc fuel s p n = some (s, p) := by
  have h : ¬ (p = 0 ∨ n = 0) := by omega
  simp [myrealloc, h, hsame]

/-- C12, witness: the block of 104 bytes of `one_block_state`, at 4104, resized
to 100 bytes, which round to 104. -/
theorem myrealloc_same_size_witness :
    myrealloc 0 one_block_state 4104 100 = some (one_block_state, 4104) :=
  myrealloc_same_size one_block_state 4104 100 0 (by decide) (by decide) (by decide)

/-- C13.  The degenerate cases of `myrealloc`, on every state: with a null
pointer and a size `n > 0` it is `mymalloc(n)`, same pointer and same state;
with a null pointer and size 0 it returns null and the state it was given; with
a non-null pointer `p` and size 0 it returns null and the state of `myfree(p)`. -/
theorem myrealloc_null_zero (s : State) (p n fuel : Nat) :
    (0 < n → myrealloc fuel s 0 n = mymalloc fuel s n) ∧
    myrealloc fuel s 0 0 = some (s, 0) ∧
    (p ≠ 0 → myrealloc fuel s p 0 = (myfree fuel s p).map (fun s1 => (s1, 0))) := by
  refine ⟨?_, ?_, ?_⟩
  · intro hn
    have : n ≠ 0 := by omega
    simp [myrealloc, null_case, this]
  · simp [myrealloc, null_case]
  · intro hp
    simp [myrealloc, null_case, hp]

/-- C13, witness: on `one_block_state`, a null pointer with 40 bytes, a null
pointer with 0 bytes, and the block at 4104 with 0 bytes. -/
theorem myrealloc_null_zero_witness :
    (0 < 40 → myrealloc 1 one_block_state 0 40 = mymalloc 1 one_block_state 40) ∧
    myrealloc 1 one_block_state 0 0 = some (one_block_state, 0) ∧
    (4104 ≠ 0 → myrealloc 1 one_block_state 4104 0
      = (myfree 1 one_block_state 4104).map (fun s1 => (s1, 0))) :=
  myrealloc_null_zero one_block_state 4104 40 1

/-- C14.  `myinit`, on every previous state: it returns false exactly when the
base is null or the capacity is below 24, and then the state is the one it was
given; otherwise it returns true and the state has `segment_start` and
`segment_end` at the base, the capacity as `segment_size`, `nused = 0`, and null
`first_free` and `last_free` (the memory is not written). -/
theorem myinit_cases (s : State) (base capacity : Nat) :
    ((myinit s base capacity).2 = false ↔ base = 0 ∨ capacity < 24) ∧
    (base = 0 ∨ capacity < 24 → (myinit s base capacity).1 = s) ∧
    (¬ (base = 0 ∨ capacity < 24) →
      (myinit s base capacity).2 = true ∧
      (myinit s base capacity).1 = ⟨s.mem, base, base, 0, 0, capacity, 0⟩) := by
  by_cases h : base = 0 ∨ capacity < 24
  · have h' : base = 0 ∨ capacity < MINHEAP := h
    simp [myinit, h', h]
  · have h' : ¬ (base = 0 ∨ capacity < MINHEAP) := h
    simp [myinit, h', h]

/-- C14, witness: a second `myinit`, at 8192 with 24 bytes, on a state that
holds an allocated block. -/
theorem myinit_cases_witness :
    ((myinit one_block_state 8192 24).2 = false ↔ 8192 = 0 ∨ 24 < 24) ∧
    (8192 = 0 ∨ 24 < 24 → (myinit one_block_state 8192 24).1 = one_block_state) ∧
    (¬ (8192 = 0 ∨ 24 < 24) →
      (myinit one_block_state 8192 24).2 = true ∧
      (myinit one_block_state 8192 24).1 = ⟨one_block_state.mem, 8192, 8192, 0, 0, 24, 0⟩) :=
  myinit_cases one_block_state 8192 24

/-- C15, failing input.  After `myinit(4096, 1024); a = mymalloc(16);
b = mymalloc(2^64 - 24); c = mymalloc(16); myfree(c)`, every call having
succeeded, the walk from `segment_start` to `segment_end` visits the blocks at
4096, whose header is 17, and at 4120, whose header is 0, a free block; the free
list, from `first_free` to the null pointer, is the single node 4104.  The node
of the free list is no block of the walk, and the free block of the walk is not
in the free list. -/
theorem free_list_misses_walk :
    overlap_release_trace.map (fun r =>
      decide (Walk r.1.mem r.1.segment_start [4096, 4120] r.1.segment_end ∧
        load r.1.mem 4096 = 17 ∧ load r.1.mem 4120 = 0 ∧
        FreeChain r.1.mem r.1.first_free [4104] ∧ r.1.last_free = 4104))
      = some true := by
  rfl

/-- C16.  `validate_heap` on a state whose committed region is tiled by the
blocks with headers at `l`: it returns; it returns false when `nused` exceeds
`segment_size`; otherwise it returns true exactly when no header of `l` has bit 1
or bit 2 set.  (The function is a read of the state: it has no state to
return.) -/
theorem validate_heap_tiled (s : State) (l : List Nat) (fuel : Nat)
    (htile : Walk s.mem s.segment_start l s.segment_end) (hfuel : l.length < fuel) :
    ∃ b, validate_heap fuel s = some b ∧
      (s.nused > s.segment_size → b = false) ∧
      (s.nused ≤ s.segment_size → (b = true ↔ ∀ x ∈ l, (SIX &&& load s.mem x) = 0)) := by
  by_cases h : s.nused > s.segment_size
  · exact ⟨false, by simp [validate_heap, h], fun _ => rfl, fun h' => absurd h (by omega)⟩
  · refine ⟨decide (∀ x ∈ l, (SIX &&& load s.mem x) = 0), ?_, fun h' => absurd h' h, fun _ => ?_⟩
    · simp only [validate_heap, h, if_false]
      exact validate_loop_walk s l _ fuel htile hfuel
    · simp

/-- C16, witness: `merge_state`, whose four blocks are at 4096, 4120, 4144 and
4168. -/
theorem validate_heap_tiled_witness :
    ∃ b, validate_heap 5 merge_state = some b ∧
      (merge_state.nused > merge_state.segment_size → b = false) ∧
      (merge_state.nused ≤ merge_state.segment_size →
        (b = true ↔ ∀ x ∈ [4096, 4120, 4144, 4168], (SIX &&& load merge_state.mem x) = 0)) :=
  validate_heap_tiled merge_state [4096, 4120, 4144, 4168] 5 (by decide) (by decide)

/-- C20, failing input.  After `myinit(4096, 1024); a = mymalloc(16);
b = mymalloc(2^64 - 24); c = mymalloc(16); myfree(c)` the block of `b`, which is
live, has its header at `b - 8 = 4120`, on the walk from `segment_start` to
`segment_end = 4128`, and this header holds 0: a payload size of 0, below 16,
and a cleared status bit. -/
theorem live_header_zeroed :
    overlap_release_trace.map (fun r =>
      (r.2.2.1, r.2.2.1 - ALIGNMENT, load r.1.mem (r.2.2.1 - ALIGNMENT),
        get_size r.1.mem (r.2.2.1 - ALIGNMENT), r.1.segment_start, r.1.segment_end,
        decide (Walk r.1.mem r.1.segment_start [4096, 4120] r.1.segment_end)))
      = some (4128, 4120, 0, 0, 4096, 4128, true) := by
  rfl

/-- Forward coalescing on a well-formed heap whose blocks are `pre`, the
allocated block `c`, then `rest`: `myfree(c.addr + 8)` returns; `ab` is the
longest run of free blocks that followed `c`; the header of `c` then holds
`c.size + span ab`, that is its former payload size plus, for each block of `ab`,
the payload size of the block plus 8, with the status bit cleared; the heap is
well formed with the blocks `pre`, the merged block, then what followed `ab`;
no block of `ab` is a node of the free list any more; and to the left of `c` the
blocks `pre` keep their headers, and every byte that is not a link field of a
node of the free list keeps its value. -/
theorem myfree_forward_coalescing (s : State) (pre rest : List Blk) (c : Blk) (fl : List Nat)
    (fuel : Nat) (hH : Heap s (pre ++ c :: rest) fl) (hu : c.used = true)
    (hfuel : rest.length < fuel) :
    ∃ s' ab rest', rest = ab ++ rest' ∧ (∀ b ∈ ab, b.used = false) ∧
      (∀ b, rest'.head? = some b → b.used = true) ∧
      myfree fuel s (c.addr + ALIGNMENT) = some s' ∧
      load s'.mem c.addr = c.size + span ab ∧
      (∃ fl', Heap s' (pre ++ ⟨c.addr, c.size + span ab, false⟩ :: rest') fl' ∧
        ∀ b ∈ ab, b.addr ∉ fl') ∧
      (∀ b ∈ pre, load s'.mem b.addr = load s.mem b.addr) ∧
      (∀ x, x < c.addr → (∀ a ∈ fl, x < a + 8 ∨ a + 24 ≤ x) → s'.mem x = s.mem x) := by
  obtain ⟨s', ab, rest', e1, e2, e3, e4, e5, e6, _⟩ :=
    myfree_spec s pre rest c fl fuel hH hu hfuel
  obtain ⟨c1, _, _, c4⟩ := Chain_split _ _ _ _ _ hH.chain
  refine ⟨s', ab, rest', e1, e2, e3, e4, ?_, ⟨_, e5, ?_⟩, ?_, fun x hx hxa => e6 x (Or.inl hx) hxa⟩
  · have := e5.hdrs ⟨c.addr, c.size + span ab, false⟩ (by simp)
    simpa [Blk.hdr] using this
  · intro b hb hmem
    rcases List.mem_append.1 hmem with h | h
    · exact not_mem_without fl ab b hb h
    · have hbr : b ∈ rest := by rw [e1]; exact List.mem_append_left _ hb
      have := Chain_mem _ _ _ c4 b hbr
      simp at h
      omega
  · intro b hb
    rw [e5.hdrs b (List.mem_append_left _ hb)]
    exact (hH.hdrs b (List.mem_append_left _ hb)).symm

/-- Forward coalescing in `merge_state`: the allocated block at 4120 lies
between the free blocks at 4096 and 4144, and the block at 4168 is allocated. -/
theorem myfree_forward_coalescing_witness :
    ∃ s' ab rest', [(⟨4144, 16, false⟩ : Blk), ⟨4168, 16, true⟩] = ab ++ rest' ∧
      (∀ b ∈ ab, b.used = false) ∧
      (∀ b, rest'.head? = some b → b.used = true) ∧
      myfree 3 merge_state (4120 + ALIGNMENT) = some s' ∧
      load s'.mem 4120 = 16 + span ab ∧
      (∃ fl', Heap s' ([⟨4096, 16, false⟩] ++ ⟨4120, 16 + span ab, false⟩ :: rest') fl' ∧
        ∀ b ∈ ab, b.addr ∉ fl') ∧
      (∀ b ∈ [(⟨4096, 16, false⟩ : Blk)], load s'.mem b.addr = load merge_state.mem b.addr) ∧
      (∀ x, x < 4120 → (∀ a ∈ [4096, 4144], x < a + 8 ∨ a + 24 ≤ x) →
        s'.mem x = merge_state.mem x) :=
  myfree_forward_coalescing merge_state [⟨4096, 16, false⟩]
    [⟨4144, 16, false⟩, ⟨4168, 16, true⟩] ⟨4120, 16, true⟩ [4096, 4144] 3
    ⟨by decide, by decide, by decide, by decide, by decide, by decide⟩ rfl (by decide)

/-- The free list of a well-formed heap is in insertion order.  On a heap whose
blocks are `pre`, the allocated block `c`, then `rest`, `myfree(c.addr + 8)`
returns, and with `ab` the run of free blocks merged into `c`: the free list is
then the former list without the blocks of `ab`, in their former order, followed
by `c`; `last_free` is `c`; the "next" field of `c` is null; the "prev" field of
`c` is the last of the remaining nodes, which is the former `last_free` unless
that block was merged, and is null when no node remains, in which case
`first_free` is `c` as well.  And `update_free`, unlinking the node `n` of the
free list `l1 ++ n :: l2` of a well-formed heap, leaves the list `l1 ++ l2`. -/
theorem free_list_insertion_order (s : State) (pre rest : List Blk) (c : Blk) (fl : List Nat)
    (fuel : Nat) (t : State) (bs : List Blk) (l1 l2 : List Nat) (n : Nat)
    (hH : Heap s (pre ++ c :: rest) fl) (hu : c.used = true) (hfuel : rest.length < fuel)
    (hT : Heap t bs (l1 ++ n :: l2)) :
    (∃ s' ab rest', rest = ab ++ rest' ∧ (∀ b ∈ ab, b.used = false) ∧
      myfree fuel s (c.addr + ALIGNMENT) = some s' ∧
      DL s'.mem 0 s'.first_free (without fl ab ++ [c.addr]) s'.last_free 0 ∧
      (without fl ab).Sublist fl ∧
      s'.last_free = c.addr ∧
      load s'.mem (c.addr + MINSIZE) = 0 ∧
      load s'.mem (c.addr + ALIGNMENT) = (without fl ab).getLast?.getD 0 ∧
      (fl ≠ [] → s.last_free ∉ ab.map Blk.addr →
        load s'.mem (c.addr + ALIGNMENT) = s.last_free) ∧
      (without fl ab = [] → s'.first_free = c.addr)) ∧
    DL (update_free t (n + MINSIZE) (n + ALIGNMENT)).mem 0
      (update_free t (n + MINSIZE) (n + ALIGNMENT)).first_free (l1 ++ l2)
      (update_free t (n + MINSIZE) (n + ALIGNMENT)).last_free 0 := by
  constructor
  · obtain ⟨s', ab, rest', e1, e2, _, e4, e5, _⟩ :=
      myfree_spec s pre rest c fl fuel hH hu hfuel
    obtain ⟨k1, k2, k3, k4⟩ := DL_snoc _ _ _ _ _ _ _ e5.links
    refine ⟨s', ab, rest', e1, e2, e4, e5.links, without_sublist fl ab, k1, k2, k3, ?_, k4⟩
    intro hne hnot
    have hl := DL_getLast _ _ _ _ _ _ hH.links
    cases hfl : fl.getLast? with
    | none => exact absurd (List.getLast?_eq_none_iff.1 hfl) hne
    | some z =>
      rw [hfl] at hl
      simp only [Option.getD_some] at hl
      rw [k3, without_getLast fl ab z hfl (by rw [← hl]; exact hnot), hl]
      rfl
  · exact (update_free_unlink t l1 l2 n hT.links (heap_nodup _ _ _ hT)
      (fun a ha b hb => heap_nodes_apart _ _ _ hT a ha b hb)).1

/-- Insertion order in `merge_state`, whose free list is 4096 then 4144: the
release of the block at 4120, which merges the tail 4144, and the unlinking of
the head 4096. -/
theorem free_list_insertion_order_witness :
    (∃ s' ab rest', [(⟨4144, 16, false⟩ : Blk), ⟨4168, 16, true⟩] = ab ++ rest' ∧
      (∀ b ∈ ab, b.used = false) ∧
      myfree 3 merge_state (4120 + ALIGNMENT) = some s' ∧
      DL s'.mem 0 s'.first_free (without [4096, 4144] ab ++ [4120]) s'.last_free 0 ∧
      (without [4096, 4144] ab).Sublist [4096, 4144] ∧
      s'.last_free = 4120 ∧
      load s'.mem (4120 + MINSIZE) = 0 ∧
      load s'.mem (4120 + ALIGNMENT) = (without [4096, 4144] ab).getLast?.getD 0 ∧
      ([4096, 4144] ≠ [] → merge_state.last_free ∉ ab.map Blk.addr →
        load s'.mem (4120 + ALIGNMENT) = merge_state.last_free) ∧
      (without [4096, 4144] ab = [] → s'.first_free = 4120)) ∧
    DL (update_free merge_state (4096 + MINSIZE) (4096 + ALIGNMENT)).mem 0
      (update_free merge_state (4096 + MINSIZE) (4096 + ALIGNMENT)).first_free ([] ++ [4144])
      (update_free merge_state (4096 + MINSIZE) (4096 + ALIGNMENT)).last_free 0 :=
  free_list_insertion_order merge_state [⟨4096, 16, false⟩]
    [⟨4144, 16, false⟩, ⟨4168, 16, true⟩] ⟨4120, 16, true⟩ [4096, 4144] 3
    merge_state [⟨4096, 16, false⟩, ⟨4120, 16, true⟩, ⟨4144, 16, false⟩, ⟨4168, 16, true⟩]
    [] [4144] 4096
    ⟨by decide, by decide, by decide, by decide, by decide, by decide⟩ rfl (by decide)
    ⟨by decide, by decide, by decide, by decide, by decide, by decide⟩

/-- In-place resize keeps the pointer on a well-formed heap.  On a heap whose
blocks are `pre`, the allocated block `c`, then `rest`, and for a size `new_size > 0`
with rounding `total_round new_size`, the call `myrealloc(c.addr + 8, new_size)`
returns, its result is the pointer `c.addr + 8` it was given, and the header of
the block then has the status bit set and records a payload size of at least
`total_round new_size`, in each of three cases: the rounded size is smaller than
the payload size of `c` (shrink); or `rest` starts with a run `ab` of free blocks
and the size of `c` plus the sizes and headers of `ab` reaches the rounded size;
or every block of `rest` is free, so that the run ends at the end of the
committed region, the run is too short, and the byte counter `nused` plus the
extension stays within the capacity `segment_size`. -/
theorem myrealloc_in_place (s : State) (pre rest : List Blk) (c : Blk) (fl : List Nat)
    (fuel new_size : Nat) (hH : Heap s (pre ++ c :: rest) fl) (hu : c.used = true)
    (hn : 0 < new_size) (hfuel : rest.length < fuel)
    (hcase : total_round new_size < c.size ∨
      (∃ ab rest', rest = ab ++ rest' ∧ (∀ b ∈ ab, b.used = false) ∧
        c.size < total_round new_size ∧ total_round new_size ≤ c.size + span ab) ∨
      ((∀ b ∈ rest, b.used = false) ∧ c.size + span rest < total_round new_size ∧
        s.nused + (total_round new_size - (c.size + span rest)) ≤ s.segment_size)) :
    ∃ s', myrealloc fuel s (c.addr + ALIGNMENT) new_size = some (s', c.addr + ALIGNMENT) ∧
      load s'.mem c.addr % 2 = 1 ∧ total_round new_size ≤ get_size s'.mem c.addr := by
  rcases hcase with h | ⟨ab, rest', hr, hfree, hlt, hge⟩ | ⟨hfree, hlt, hfit⟩
  · exact myrealloc_shrink s pre rest c fl fuel new_size hH hu hn hfuel h
  · subst hr
    exact myrealloc_grow s pre ab rest' c fl fuel new_size hH hu hn
      (by simp at hfuel; omega) hfree hlt hge
  · exact myrealloc_extend s pre rest c fl fuel new_size hH hu hn hfuel hfree hlt hfit

/-- In-place resize on concrete heaps: the block of 104 bytes of
`one_block_state`, at 4096, shrunk to 16 bytes, and extended to 200 bytes at the
end of the committed region; the block of 16 bytes at 4120 of `merge_state`,
grown to 40 bytes over the free block at 4144. -/
theorem myrealloc_in_place_witness :
    (∃ s', myrealloc 1 one_block_state (4096 + ALIGNMENT) 16 = some (s', 4096 + ALIGNMENT) ∧
      load s'.mem 4096 % 2 = 1 ∧ total_round 16 ≤ get_size s'.mem 4096) ∧
    (∃ s', myrealloc 3 merge_state (4120 + ALIGNMENT) 40 = some (s', 4120 + ALIGNMENT) ∧
      load s'.mem 4120 % 2 = 1 ∧ total_round 40 ≤ get_size s'.mem 4120) ∧
    (∃ s', myrealloc 1 one_block_state (4096 + ALIGNMENT) 200 = some (s', 4096 + ALIGNMENT) ∧
      load s'.mem 4096 % 2 = 1 ∧ total_round 200 ≤ get_size s'.mem 4096) :=
  ⟨myrealloc_in_place one_block_state [] [] ⟨4096, 104, true⟩ [] 1 16
      ⟨by decide, by decide, by decide, by decide, by decide, by decide⟩ rfl (by decide)
      (by decide) (Or.inl (by decide)),
    myrealloc_in_place merge_state [⟨4096, 16, false⟩]
      [⟨4144, 16, false⟩, ⟨4168, 16, true⟩] ⟨4120, 16, true⟩ [4096, 4144] 3 40
      ⟨by decide, by decide, by decide, by decide, by decide, by decide⟩ rfl (by decide)
      (by decide)
      (Or.inr (Or.inl ⟨[⟨4144, 16, false⟩], [⟨4168, 16, true⟩], rfl, by decide, by decide,
        by decide⟩)),
    myrealloc_in_place one_block_state [] [] ⟨4096, 104, true⟩ [] 1 200
      ⟨by decide, by decide, by decide, by decide, by decide, by decide⟩ rfl (by decide)
      (by decide) (Or.inr (Or.inr ⟨by decide, by decide, by decide⟩))⟩

/-- C21, failing input.  After `myinit(4096, 1024); a = mymalloc(16);
b = mymalloc(16)` the block of `a`, of 16 bytes, is followed by the allocated
block of `b`, `nused` is 48 and the segment ends at 5120.  In
`myrealloc(a, 2^64 - 24)` the growth loop exits at once with `next_pos = 4120`,
which is not `segment_end = 4144`, so the block is moved; the inner
`mymalloc(2^64 - 24)` returns the non-null pointer 4152, because the sum
`needed + nused` wraps around to 24 in its capacity test; and the `2^64 - 24`
bytes from `a = 4104` that the copy reads do not lie in the segment: the word
777 at 8192, beyond the segment, is copied to `4152 + (8192 - 4104) = 8240`. -/
theorem relocation_reads_past_segment :
    relocation_overrun_trace.map (fun r =>
      (r.2.2.1, r.2.2.2, get_size r.1.mem (r.2.2.1 - ALIGNMENT),
        (myrealloc_loop 1 r.1 (r.2.2.1 - ALIGNMENT) (total_round (2 ^ 64 - 24)) r.2.2.1
          4120).bind Grow.exit_pos,
        r.1.segment_end, (total_round (2 ^ 64 - 24) + r.1.nused) % WORD,
        (mymalloc 1 r.1 (2 ^ 64 - 24)).map Prod.snd,
        r.1.segment_start + r.1.segment_size,
        decide (in_segment r.1 r.2.2.1 (2 ^ 64 - 24)),
        load r.1.mem 8192, load r.1.mem 8240, load r.2.1.mem 8240))
      = some (4104, 4152, 16, some 4120, 4144, 24, some 4152, 5120, false, 777, 0, 777) := by
  rfl

/-- C17, failing input.  After `myinit(4096, 64); a = mymalloc(16)` the call
`myrealloc(a, 100)` returns null, so `a = 4104` is still live, and it leaves the
header of `a` at 105: a payload of 104 bytes, while `segment_end` is 4120 and
the segment ends at 4160.  In `myfree(a)` the merge loop therefore starts at
`4096 + 104 + 8 = 4208`, outside the segment; the word there is 0, which the loop
takes for a free block, and the call has not returned after 16 rounds of the
loop. -/
theorem release_walks_out_of_segment :
    failed_extension_trace.map (fun r =>
      (r.2.2.1, r.2.2.2, load r.2.1.mem (r.2.2.1 - ALIGNMENT),
        get_size r.2.1.mem (r.2.2.1 - ALIGNMENT), r.2.1.segment_end,
        r.2.1.segment_start + r.2.1.segment_size,
        r.2.2.1 - ALIGNMENT + get_size r.2.1.mem (r.2.2.1 - ALIGNMENT) + ALIGNMENT,
        decide (in_segment r.2.1 4208 ALIGNMENT), load r.2.1.mem 4208 &&& SEVEN,
        (myfree 16 r.2.1 r.2.2.1).isSome))
      = some (4104, 0, 105, 104, 4120, 4160, 4208, false, 0, false) := by
  rfl

/-- C18, failing input.  After `myinit(4096, 96); x = mymalloc(16);
a = mymalloc(16); myfree(x)` the free list is the block of `x`, at 4096, and
`myrealloc(a, 200)` returns null, leaving the header of `a = 4128` at 201 while
`segment_end` is 4144 and the segment ends at 4192.  In `myfree(a)` the merge
loop starts at `4120 + 200 + 8 = 4328`, outside the segment, where the word is
0; the `update_free` of its first round, on the zero words at 4336 and 4344, sets
`first_free` and `last_free` to null, which drops the free block at 4096 from the
list; and the call has not returned after 16 rounds of the loop. -/
theorem release_empties_free_list :
    stale_list_trace.map (fun r =>
      (r.2.1, r.2.2.1, r.2.2.2, r.1.first_free, r.1.last_free, load r.1.mem 4096,
        load r.1.mem (r.2.2.1 - ALIGNMENT), r.1.segment_end,
        r.1.segment_start + r.1.segment_size,
        r.2.2.1 - ALIGNMENT + get_size r.1.mem (r.2.2.1 - ALIGNMENT) + ALIGNMENT,
        decide (in_segment r.1 4328 ALIGNMENT), load r.1.mem 4328 &&& SEVEN,
        (update_free r.1 (4328 + MINSIZE) (4328 + ALIGNMENT)).first_free,
        (update_free r.1 (4328 + MINSIZE) (4328 + ALIGNMENT)).last_free,
        (myfree 16 r.1 r.2.2.1).isSome))
      = some (4104, 4128, 0, 4096, 4096, 16, 201, 4144, 4192, 4328, false, 0, 0, 0, false) := by
  rfl

/-- C19, failing input.  After `myinit(4096, 64); a = mymalloc(16)` the call
`myrealloc(a, 100)` returns null, so `a = 4104` is still live, and it leaves the
header of `a` at 105: a payload of 104 bytes, while `segment_end` is 4120 and
the segment ends at 4160.  `myrealloc(a, 16)` is then a shrink, `16 < 104`; it
splits the block, and the merge loop of `sum_free` starts at
`4096 + 8 + 104 = 4208`, outside the segment, on zero words that it takes for
free blocks: whatever the fuel, the call does not return. -/
theorem shrink_walks_out_of_segment (fuel : Nat) :
    failed_extension_trace.map (fun r =>
      (r.2.2.1, r.2.2.2, load r.2.1.mem (r.2.2.1 - ALIGNMENT),
        get_size r.2.1.mem (r.2.2.1 - ALIGNMENT), total_round 16, r.2.1.segment_end,
        r.2.1.segment_start + r.2.1.segment_size,
        r.2.2.1 - ALIGNMENT + ALIGNMENT + get_size r.2.1.mem (r.2.2.1 - ALIGNMENT),
        decide (in_segment r.2.1 4208 ALIGNMENT), load r.2.1.mem 4208 &&& SEVEN,
        myrealloc fuel r.2.1 r.2.2.1 16))
      = some (4104, 0, 105, 104, 16, 4120, 4160, 4208, false, 0, none) := by
  have e : failed_extension_trace.map (fun r =>
      (r.2.2.1, r.2.2.2, load r.2.1.mem (r.2.2.1 - ALIGNMENT),
        get_size r.2.1.mem (r.2.2.1 - ALIGNMENT), total_round 16, r.2.1.segment_end,
        r.2.1.segment_start + r.2.1.segment_size,
        r.2.2.1 - ALIGNMENT + ALIGNMENT + get_size r.2.1.mem (r.2.2.1 - ALIGNMENT),
        decide (in_segment r.2.1 4208 ALIGNMENT), load r.2.1.mem 4208 &&& SEVEN,
        myrealloc fuel r.2.1 r.2.2.1 16))
      = some (4104, 0, 105, 104, 16, 4120, 4160, 4208, false, 0,
        myrealloc fuel failed_extension_state (4096 + ALIGNMENT) 16) := rfl
  rw [e, failed_extension_shrink fuel]

end Explicit
